import Mathlib

set_option autoImplicit false

/-!
Verification of the record reconciliation and attribution subsystem of the
Rosetta repository: the dedup/merge logic of `scripts/aggregate_json.py` and
`scripts/aggregate_metadata.py`, and the flattening / user-attribution logic
of `scripts/metadata_to_csv.py`, embedded shallowly over a JSON value model.
Strings are modelled as lists of characters; Python's `str.strip`, `str.lower`
and the regex classes used by the scripts are modelled on their ASCII
fragment.
-/

namespace Rosetta

/-- Strings of the embedding: plain lists of characters. -/
abbrev Str := List Char

/-- ASCII fragment of Python's whitespace class (`str.strip`, regex `\s`). -/
def isWs (c : Char) : Bool :=
  c = ' ' || c = '\t' || c = '\n' || c = '\r' || c = Char.ofNat 11 || c = Char.ofNat 12

/-- Python `str.lstrip()` on the ASCII whitespace set. -/
def lstrip (s : Str) : Str := s.dropWhile isWs

/-- Python `str.rstrip()` on the ASCII whitespace set. -/
def rstrip (s : Str) : Str := (s.reverse.dropWhile isWs).reverse

/-- Python `str.strip()` on the ASCII whitespace set. -/
def pyStrip (s : Str) : Str := rstrip (lstrip s)

/-- ASCII lower-casing of one character (fragment of Python `str.lower`). -/
def lowChar (c : Char) : Char :=
  if 'A' ≤ c && c ≤ 'Z' then Char.ofNat (c.toNat + 32) else c

/-- ASCII lower-casing of a string (fragment of Python `str.lower`). -/
def lowerStr (s : Str) : Str := s.map lowChar

/-- Replace each maximal run of characters satisfying `p` by the single
character `r`; the boolean records whether we are inside a run.  This models
`re.sub(cls + "+", repl, s)` for a character class `cls`. -/
def collapseAux (p : Char → Bool) (r : Char) : Bool → Str → Str
  | _, [] => []
  | inRun, c :: rest =>
    if p c then
      if inRun then collapseAux p r true rest
      else r :: collapseAux p r true rest
    else c :: collapseAux p r false rest

/-- Replace each maximal run of characters satisfying `p` by `r`. -/
def collapseRuns (p : Char → Bool) (r : Char) (s : Str) : Str :=
  collapseAux p r false s

/-- Path separators recognised by the scripts (regex `[\\/]`). -/
def isSep (c : Char) : Bool := c = '/' || c = '\\'

/-- Accumulating worker for `re.split(r"[\\/]+", s)` with empties dropped:
`cur` is the component currently being read. -/
def splitAux : Str → Str → List Str
  | cur, [] => if cur = [] then [] else [cur]
  | cur, c :: rest =>
    if isSep c then
      if cur = [] then splitAux [] rest else cur :: splitAux [] rest
    else splitAux (cur ++ [c]) rest

/-- Pattern-part of `a.startswith(b)`: does `s` start with `pat`? -/
def swith : Str → Str → Bool
  | [], _ => true
  | _ :: _, [] => false
  | p :: ps, c :: cs => p = c && swith ps cs

/-- Python's `pat in s` substring test. -/
def containsSub (pat : Str) : Str → Bool
  | [] => pat.isEmpty
  | c :: rest => swith pat (c :: rest) || containsSub pat rest

/-- JSON values as produced by `json.load`.  Numbers are modelled as integers
(the claims under study do not hinge on floating point). -/
inductive Json where
  | null
  | bool (b : Bool)
  | int (n : Int)
  | str (s : Str)
  | arr (xs : List Json)
  | obj (kvs : List (Str × Json))

/-- A record: the entry list of a JSON object (a Python dict). -/
abbrev Record := List (Str × Json)

mutual
/-- Boolean equality on `Json` (needed because `deriving DecidableEq` does not
handle the nested lists). -/
def jeq : Json → Json → Bool
  | .null, .null => true
  | .bool a, .bool b => a = b
  | .int a, .int b => a = b
  | .str a, .str b => a = b
  | .arr a, .arr b => jeqArr a b
  | .obj a, .obj b => jeqObj a b
  | _, _ => false

/-- Boolean equality on lists of `Json`. -/
def jeqArr : List Json → List Json → Bool
  | [], [] => true
  | a :: as_, b :: bs => jeq a b && jeqArr as_ bs
  | _, _ => false

/-- Boolean equality on entry lists of JSON objects. -/
def jeqObj : List (Str × Json) → List (Str × Json) → Bool
  | [], [] => true
  | (k, v) :: as_, (k', v') :: bs => k = k' && jeq v v' && jeqObj as_ bs
  | _, _ => false
end

mutual
theorem jeq_iff : ∀ a b : Json, jeq a b = true ↔ a = b
  | .null, b => by cases b <;> simp [jeq]
  | .bool x, b => by cases b <;> simp [jeq]
  | .int x, b => by cases b <;> simp [jeq]
  | .str x, b => by cases b <;> simp [jeq]
  | .arr xs, b => by
      cases b <;> simp [jeq]
      exact jeqArr_iff xs _
  | .obj kvs, b => by
      cases b <;> simp [jeq]
      exact jeqObj_iff kvs _

theorem jeqArr_iff : ∀ a b : List Json, jeqArr a b = true ↔ a = b
  | [], b => by cases b <;> simp [jeqArr]
  | x :: xs, b => by
      cases b with
      | nil => simp [jeqArr]
      | cons y ys =>
          have h1 := jeq_iff x y
          have h2 := jeqArr_iff xs ys
          simp only [jeqArr, Bool.and_eq_true, List.cons.injEq, h1, h2]

theorem jeqObj_iff : ∀ a b : List (Str × Json), jeqObj a b = true ↔ a = b
  | [], b => by cases b <;> simp [jeqObj]
  | (k, v) :: xs, b => by
      cases b with
      | nil => simp [jeqObj]
      | cons y ys =>
          obtain ⟨k', v'⟩ := y
          have h1 := jeq_iff v v'
          have h2 := jeqObj_iff xs ys
          simp only [jeqObj, Bool.and_eq_true, List.cons.injEq, Prod.mk.injEq,
            decide_eq_true_eq, h1, h2]
          try tauto
end

instance : DecidableEq Json := fun a b =>
  decidable_of_iff (jeq a b = true) (jeq_iff a b)

/-- Python-dict insertion/update: replace in place if the key is present,
otherwise append at the end (Python 3.7+ dict semantics). -/
def dinsert {α β : Type} [DecidableEq α] : List (α × β) → α → β → List (α × β)
  | [], k, v => [(k, v)]
  | (k', v') :: rest, k, v =>
    if k' = k then (k', v) :: rest else (k', v') :: dinsert rest k v

/-- Python-dict lookup (`d.get(k)`); on duplicate-free key lists this is the
dict association. -/
def dlookup {α β : Type} [DecidableEq α] : List (α × β) → α → Option β
  | [], _ => none
  | (k', v') :: rest, k => if k' = k then some v' else dlookup rest k

/-- Keys of an association list. -/
def dkeys {α β : Type} (m : List (α × β)) : List α := m.map Prod.fst

/-- Removal of every entry with key `k` (used only in specification
statements, never by the embedded code). -/
def dremove {α β : Type} [DecidableEq α] : List (α × β) → α → List (α × β)
  | [], _ => []
  | (k', v') :: rest, k =>
    if k' = k then dremove rest k else (k', v') :: dremove rest k

/-- Decimal digit character. -/
def digitChar (n : Nat) : Char := Char.ofNat (48 + n)

/-- Lowercase hexadecimal digit character. -/
def hexDigit (n : Nat) : Char :=
  if n < 10 then Char.ofNat (48 + n) else Char.ofNat (87 + n)

/-- Decimal rendering of a natural number (Python `str`). -/
def natRepr (n : Nat) : Str :=
  if h : n < 10 then [digitChar n]
  else natRepr (n / 10) ++ [digitChar (n % 10)]
termination_by n
decreasing_by
  exact Nat.div_lt_self (Nat.lt_of_lt_of_le (by norm_num) (Nat.le_of_not_lt h))
    (by norm_num)

/-- Decimal rendering of an integer (Python `str`, `json.dumps`). -/
def intRepr : Int → Str
  | .ofNat n => natRepr n
  | .negSucc m => '-' :: natRepr (m + 1)

/-- Escape of one character inside a Python `repr` string literal quoted by
`q` (ASCII fragment: backslash, the quote, and control characters). -/
def reprEsc (q : Char) (c : Char) : Str :=
  if c = '\\' then ['\\', '\\']
  else if c = q then ['\\', q]
  else if c = '\n' then ['\\', 'n']
  else if c = '\r' then ['\\', 'r']
  else if c = '\t' then ['\\', 't']
  else if c.toNat < 32 || c.toNat = 127 then
    ['\\', 'x', hexDigit (c.toNat / 16), hexDigit (c.toNat % 16)]
  else [c]

/-- Python `repr` of a string: single quotes unless the string contains a
single quote and no double quote. -/
def pyReprStr (s : Str) : Str :=
  let q := if s.contains '\'' && !s.contains '"' then '"' else '\''
  q :: s.flatMap (reprEsc q) ++ [q]

mutual
/-- Python `repr` of a JSON-shaped value (used by `str` on containers). -/
def pyRepr : Json → Str
  | .null => ('N' :: "one".data)
  | .bool true => ('T' :: "rue".data)
  | .bool false => ('F' :: "alse".data)
  | .int n => intRepr n
  | .str s => pyReprStr s
  | .arr xs => '[' :: pyReprArr xs ++ [']']
  | .obj kvs => '{' :: pyReprObj kvs ++ ['}']

/-- Comma-separated `repr` of list elements. -/
def pyReprArr : List Json → Str
  | [] => []
  | [v] => pyRepr v
  | v :: v' :: rest => pyRepr v ++ ',' :: ' ' :: pyReprArr (v' :: rest)

/-- Comma-separated `repr` of dict entries. -/
def pyReprObj : List (Str × Json) → Str
  | [] => []
  | [(k, v)] => pyReprStr k ++ ':' :: ' ' :: pyRepr v
  | (k, v) :: p :: rest =>
    pyReprStr k ++ ':' :: ' ' :: pyRepr v ++ ',' :: ' ' :: pyReprObj (p :: rest)
end

/-- Python `str()` of a value, as used by the f-string `f"{k}:{v}"` in the
key functions: strings render as themselves, scalars as their Python text,
containers through `repr`. -/
def pyStr : Json → Str
  | .str s => s
  | v => pyRepr v

/-- Escape of one character by `json.dumps` with `ensure_ascii=False`: only
the double quote, the backslash and control characters below `0x20` are
escaped. -/
def jsonEscChar (c : Char) : Str :=
  if c = '"' then ['\\', '"']
  else if c = '\\' then ['\\', '\\']
  else if c = '\n' then ['\\', 'n']
  else if c = '\t' then ['\\', 't']
  else if c = '\r' then ['\\', 'r']
  else if c = Char.ofNat 8 then ['\\', 'b']
  else if c = Char.ofNat 12 then ['\\', 'f']
  else if c.toNat < 32 then
    ['\\', 'u', '0', '0', hexDigit (c.toNat / 16), hexDigit (c.toNat % 16)]
  else [c]

/-- JSON string literal with `json.dumps` escaping. -/
def jsonQuote (s : Str) : Str := '"' :: s.flatMap jsonEscChar ++ ['"']

/-- Code-point lexicographic order on strings (Python `<` on `str`,
restricted to the code-point comparison `sorted` uses). -/
def strLt : Str → Str → Bool
  | [], [] => false
  | [], _ :: _ => true
  | _ :: _, [] => false
  | a :: as_, b :: bs => a < b || (a = b && strLt as_ bs)

/-- Insertion into a key-sorted entry list (worker of `sorted` on keys). -/
def insKey (p : Str × Json) : List (Str × Json) → List (Str × Json)
  | [] => [p]
  | q :: rest => if strLt p.1 q.1 then p :: q :: rest else q :: insKey p rest

/-- Sorting of object entries by key, as `json.dumps(..., sort_keys=True)`
does at every level. -/
def sortKeys (l : List (Str × Json)) : List (Str × Json) :=
  l.foldr insKey []

mutual
/-- Canonical form of a JSON value: object keys sorted at every nesting
level (the value-shape on which `json.dumps(..., sort_keys=True)` serialises
structurally). -/
def canon : Json → Json
  | .obj kvs => .obj (sortKeys (canonObj kvs))
  | .arr xs => .arr (canonArr xs)
  | v => v

/-- Canonical form of each entry value of an object. -/
def canonObj : List (Str × Json) → List (Str × Json)
  | [] => []
  | (k, v) :: rest => (k, canon v) :: canonObj rest

/-- Canonical form of each element of an array. -/
def canonArr : List Json → List Json
  | [] => []
  | v :: rest => canon v :: canonArr rest
end

mutual
/-- Serialisation of a JSON value with the default `json.dumps` separators
`", "` and `": "` and `ensure_ascii=False` escaping (no key sorting here;
see `canonSer`). -/
def serRaw : Json → Str
  | .null => ('n' :: "ull".data)
  | .bool true => ('t' :: "rue".data)
  | .bool false => ('f' :: "alse".data)
  | .int n => intRepr n
  | .str s => jsonQuote s
  | .arr xs => '[' :: serArr xs ++ [']']
  | .obj kvs => '{' :: serObj kvs ++ ['}']

/-- Serialisation of array elements, `", "`-separated. -/
def serArr : List Json → Str
  | [] => []
  | [v] => serRaw v
  | v :: v' :: rest => serRaw v ++ ',' :: ' ' :: serArr (v' :: rest)

/-- Serialisation of object entries, `", "`-separated with `": "` between
key and value. -/
def serObj : List (Str × Json) → Str
  | [] => []
  | [(k, v)] => jsonQuote k ++ ':' :: ' ' :: serRaw v
  | (k, v) :: p :: rest =>
    jsonQuote k ++ ':' :: ' ' :: serRaw v ++ ',' :: ' ' :: serObj (p :: rest)
end

/-- Canonical serialisation: `json.dumps(v, ensure_ascii=False,
sort_keys=True)`. -/
def canonSer (v : Json) : Str := serRaw (canon v)

/-- UTF-8 bytes of one character. -/
def utf8Char (c : Char) : List Nat :=
  let n := c.toNat
  if n < 128 then [n]
  else if n < 2048 then [192 + n / 64, 128 + n % 64]
  else if n < 65536 then [224 + n / 4096, 128 + (n / 64) % 64, 128 + n % 64]
  else [240 + n / 262144, 128 + (n / 4096) % 64, 128 + (n / 64) % 64,
    128 + n % 64]

/-- UTF-8 encoding of a string (Python `s.encode("utf-8")`). -/
def utf8 (s : Str) : List Nat := s.flatMap utf8Char

/-- Truncation to 32 bits. -/
def w32 (n : Nat) : Nat := n % 4294967296

/-- 32-bit modular addition. -/
def add32 (a b : Nat) : Nat := (a + b) % 4294967296

/-- 32-bit right rotation by `k` (for `k ≤ 32`). -/
def rotr (n k : Nat) : Nat := n / 2 ^ k + n % 2 ^ k * 2 ^ (32 - k)

/-- 32-bit complement. -/
def not32 (n : Nat) : Nat := 4294967295 - n

/-- SHA-256 round constants (decimal rendering of the standard words). -/
def shaK : List Nat :=
  [1116352408, 1899447441, 3049323471, 3921009573, 961987163, 1508970993,
   2453635748, 2870763221, 3624381080, 310598401, 607225278, 1426881987,
   1925078388, 2162078206, 2614888103, 3248222580, 3835390401, 4022224774,
   264347078, 604807628, 770255983, 1249150122, 1555081692, 1996064986,
   2554220882, 2821834349, 2952996808, 3210313671, 3336571891, 3584528711,
   113926993, 338241895, 666307205, 773529912, 1294757372, 1396182291,
   1695183700, 1986661051, 2177026350, 2456956037, 2730485921, 2820302411,
   3259730800, 3345764771, 3516065817, 3600352804, 4094571909, 275423344,
   430227734, 506948616, 659060556, 883997877, 958139571, 1322822218,
   1537002063, 1747873779, 1955562222, 2024104815, 2227730452, 2361852424,
   2428436474, 2756734187, 3204031479, 3329325298]

/-- SHA-256 initial hash state (decimal rendering of the standard words). -/
def shaH0 : List Nat :=
  [1779033703, 3144134277, 1013904242, 2773480762, 1359893119, 2600822924,
   528734635, 1541459225]

/-- Big-endian bytes of `n`, `k` bytes wide. -/
def beBytes : Nat → Nat → List Nat
  | 0, _ => []
  | k + 1, n => beBytes k (n / 256) ++ [n % 256]

/-- SHA-256 message padding: `0x80`, zeros to 56 mod 64, 8-byte big-endian
bit length. -/
def shaPad (msg : List Nat) : List Nat :=
  let l := msg.length
  let zeros := (64 + 56 - (l + 1) % 64) % 64
  msg ++ 128 :: List.replicate zeros 0 ++ beBytes 8 (8 * l)

/-- Big-endian 32-bit words of a byte list. -/
def toWords : List Nat → List Nat
  | b1 :: b2 :: b3 :: b4 :: rest =>
    (((b1 * 256 + b2) * 256 + b3) * 256 + b4) :: toWords rest
  | _ => []

/-- Message-schedule small sigma 0. -/
def ssig0 (x : Nat) : Nat := Nat.xor (Nat.xor (rotr x 7) (rotr x 18)) (x / 8)

/-- Message-schedule small sigma 1. -/
def ssig1 (x : Nat) : Nat :=
  Nat.xor (Nat.xor (rotr x 17) (rotr x 19)) (x / 1024)

/-- Extend the 16 schedule words by `fuel` further words. -/
def extendW : List Nat → Nat → List Nat
  | ws, 0 => ws
  | ws, fuel + 1 =>
    let n := ws.length
    let w := add32 (add32 (ws.getD (n - 16) 0) (ssig0 (ws.getD (n - 15) 0)))
      (add32 (ws.getD (n - 7) 0) (ssig1 (ws.getD (n - 2) 0)))
    extendW (ws ++ [w]) fuel

/-- Compression big sigma 0. -/
def bsig0 (x : Nat) : Nat :=
  Nat.xor (Nat.xor (rotr x 2) (rotr x 13)) (rotr x 22)

/-- Compression big sigma 1. -/
def bsig1 (x : Nat) : Nat :=
  Nat.xor (Nat.xor (rotr x 6) (rotr x 11)) (rotr x 25)

/-- SHA-256 choice function. -/
def shaCh (x y z : Nat) : Nat :=
  Nat.xor (Nat.land x y) (Nat.land (not32 x) z)

/-- SHA-256 majority function. -/
def shaMaj (x y z : Nat) : Nat :=
  Nat.xor (Nat.xor (Nat.land x y) (Nat.land x z)) (Nat.land y z)

/-- One compression round over the eight-word working state. -/
def compressStep (hs : List Nat) (kw : Nat × Nat) : List Nat :=
  match hs with
  | [a, b, c, d, e, f, g, h] =>
    let t1 := add32 h (add32 (bsig1 e) (add32 (shaCh e f g)
      (add32 kw.1 kw.2)))
    let t2 := add32 (bsig0 a) (shaMaj a b c)
    [add32 t1 t2, a, b, c, add32 d t1, e, f, g]
  | other => other

/-- Process one 64-byte chunk. -/
def compressChunk (hs : List Nat) (chunk : List Nat) : List Nat :=
  let ws := extendW (toWords chunk) 48
  let res := (shaK.zip ws).foldl compressStep hs
  (hs.zip res).map (fun p => add32 p.1 p.2)

/-- Split a byte list into 64-byte chunks (fueled; the fuel is an upper
bound on the number of chunks). -/
def chunks64 : Nat → List Nat → List (List Nat)
  | 0, _ => []
  | _, [] => []
  | fuel + 1, bs => bs.take 64 :: chunks64 fuel (bs.drop 64)

/-- SHA-256 of a byte list, as eight 32-bit words. -/
def sha256 (msg : List Nat) : List Nat :=
  let padded := shaPad msg
  (chunks64 padded.length padded).foldl compressChunk shaH0

/-- Lowercase hexadecimal digest of SHA-256 (`hashlib.sha256(...).hexdigest()`). -/
def sha256Hex (msg : List Nat) : Str :=
  (sha256 msg).flatMap
    (fun w => (beBytes 4 w).flatMap (fun b => [hexDigit (b / 16), hexDigit (b % 16)]))

/-- Priority list of identity fields shared by both aggregation scripts. -/
def PRIORITY_KEYS : List Str :=
  ["id".data, "uuid".data, "source".data, "source_path".data, "filename".data]

/-- Scan of the priority fields in `aggregate_json.dedupe_key`: a field is
skipped only when missing or JSON `null` (Python `None`); an empty string
is accepted. -/
def dkScan (item : Record) : List Str → Option Str
  | [] => none
  | k :: rest =>
    match dlookup item k with
    | some v => if v = Json.null then dkScan item rest else some (k ++ ':' :: pyStr v)
    | none => dkScan item rest

/-- The canonical-hash fallback shared by both key functions:
`sha256(json.dumps(item, sort_keys=True, ensure_ascii=False).encode("utf-8")).hexdigest()`. -/
def hashKey (item : Record) : Str := sha256Hex (utf8 (canonSer (Json.obj item)))

/-- Dedup key of `scripts/aggregate_json.py` (`dedupe_key`). -/
def dedupe_key (item : Record) : Str :=
  match dkScan item PRIORITY_KEYS with
  | some k => k
  | none => hashKey item

/-- Scan of the priority fields in `aggregate_metadata.record_key`: a field
is skipped when missing, JSON `null`, or the empty string
(`v not in (None, "")`). -/
def rkScan (item : Record) : List Str → Option Str
  | [] => none
  | k :: rest =>
    match dlookup item k with
    | some v =>
      if v = Json.null ∨ v = Json.str [] then rkScan item rest
      else some (k ++ ':' :: pyStr v)
    | none => rkScan item rest

/-- Dedup key of `scripts/aggregate_metadata.py` (`record_key`). -/
def record_key (item : Record) : Str :=
  match rkScan item PRIORITY_KEYS with
  | some k => k
  | none => hashKey item

/-- Python `dict.setdefault(k, v)`: insert at the end only when the key is
absent (a present key keeps its value, even JSON `null`). -/
def setdefault (m : Record) (k : Str) (v : Json) : Record :=
  match dlookup m k with
  | some _ => m
  | none => m ++ [(k, v)]

/-- Normalisation of one parsed item in `aggregate_json.records_from_data`:
non-dict values are wrapped as `{"_raw": value}`, then `source_path` is
set if absent. -/
def recWrap (src : Str) (item : Json) : Record :=
  match item with
  | Json.obj r => setdefault r ("source_path".data) (Json.str src)
  | v => setdefault [("_raw".data, v)] ("source_path".data) (Json.str src)

/-- Model of `aggregate_json.records_from_data` applied to the value read by
`load_json_safely`: `none` models an unreadable or unparsable file; JSON
`null` loads as Python `None` and also yields no records. -/
def records_from_data (data : Option Json) (src : Str) : List Record :=
  match data with
  | none => []
  | some Json.null => []
  | some (Json.arr items) => items.map (recWrap src)
  | some j => [recWrap src j]

/-- Model of the existing-store build in `aggregate_json.main` (lines
97–103), applied to the parse result of the output file: on parse failure
(`none`) or a non-list value the store stays empty; of a list only the dict
items are keyed and loaded. -/
def existingOfParse (p : Option Json) : List (Str × Record) :=
  match p with
  | some (Json.arr items) =>
    items.foldl (fun m it =>
      match it with
      | Json.obj r => dinsert m (dedupe_key r) r
      | _ => m) []
  | _ => []

/-- Upsert loop of `aggregate_json.main` (lines 106–110): every incoming
record overwrites the map entry at its dedup key. -/
def aggregate_json_merge (m : List (Str × Record)) (inc : List Record) :
    List (Str × Record) :=
  inc.foldl (fun m rec_ => dinsert m (dedupe_key rec_) rec_) m

/-- Model of `aggregate_metadata.load_existing` applied to the parse result
of the store file: a missing file or a parse failure (`none`) yields the
empty store, a JSON array is returned verbatim, and any other JSON value is
wrapped in a one-element list. -/
def load_existing (p : Option Json) : List Json :=
  match p with
  | none => []
  | some (Json.arr xs) => xs
  | some j => [j]

/-- Skip-duplicates loop of `aggregate_metadata.main` (lines 78–91): the
state is the cumulative record list paired with the `seen` key set; an
incoming record whose key was already seen is skipped, otherwise it is
appended and its key recorded. -/
def aggregate_metadata_merge (cumulative : List Record)
    (incoming : List Record) : List Record :=
  (incoming.foldl (fun st it =>
      let k := record_key it
      if k ∈ st.2 then st else (st.1 ++ [it], st.2 ++ [k]))
    (cumulative, cumulative.map record_key)).1

/-- Normalisation of a single path component
(`metadata_to_csv.normalize_component`):
`re.sub(r"\s+", " ", s.strip().lower())`. -/
def normalize_component (s : Str) : Str :=
  collapseRuns isWs ' ' (lowerStr (pyStrip s))

/-- Strip of the `file:` URI prefix, `re.sub(r"^file:(/{2,3})?", "", s,
flags=re.IGNORECASE)`: the optional group takes three slashes if present,
else two, else nothing. -/
def stripFileColon (s : Str) : Str :=
  if lowerStr (s.take 5) = ('f' :: "ile:".data) then
    let t := s.drop 5
    let run := (t.takeWhile (fun c => c = '/')).length
    if 3 ≤ run then t.drop 3 else if run = 2 then t.drop 2 else t
  else s

/-- Replacement of backslashes by forward slashes (`s.replace("\\", "/")`). -/
def backToFwd (s : Str) : Str := s.map (fun c => if c = '\\' then '/' else c)

/-- Post-prefix pipeline of `normalize_path`: backslash replacement, slash
collapsing, whitespace collapsing, lower-casing. -/
def npPost (s : Str) : Str :=
  lowerStr (collapseRuns isWs ' ' (collapseRuns (fun c => c = '/') '/' (backToFwd s)))

/-- Full-path normalisation (`metadata_to_csv.normalize_path`). -/
def normalize_path (s : Str) : Str :=
  npPost (stripFileColon (pyStrip s))

/-- Path splitting across Windows and POSIX separators
(`metadata_to_csv.split_path_components`). -/
def split_path_components (s : Str) : List Str := splitAux [] s

/-- Recursive flattening worker (`metadata_to_csv.flatten_dict`): `pfx` is
the accumulated dotted prefix and `out` the shared output dict. -/
def flatten_dict : List (Str × Json) → Str → List (Str × Json) → List (Str × Json)
  | [], _, out => out
  | (k, v) :: rest, pfx, out =>
    let key := if pfx = [] then k else pfx ++ '.' :: k
    match v with
    | Json.obj kvs => flatten_dict rest pfx (flatten_dict kvs key out)
    | _ => flatten_dict rest pfx (dinsert out key v)

/-- Flattening of a record (`flatten_dict(rec)` with the default empty
prefix and fresh output dict). -/
def flattenRec (d : List (Str × Json)) : List (Str × Json) := flatten_dict d [] []

/-- The two lookup structures of `metadata_to_csv.UsersIndex`. -/
structure UsersIndex where
  component_map : List (Str × Str)
  path_list : List (Str × Str)
deriving DecidableEq

/-- A CSV row survives the read filter when some cell is non-blank. -/
def rowNonblank (r : List Str) : Bool := r.any (fun cell => !(pyStrip cell).isEmpty)

/-- Header detection of `read_users_index`: the first surviving row,
lower-cased and stripped, must contain both `folder` and `email`. -/
def usersHasHeader (header : List Str) : Bool :=
  header.contains ("folder".data) && header.contains ("email".data)

/-- Per-row indexing step of `read_users_index` (lines 125–143): the state
is `(component_map, path_list)`. -/
def usersRowStep (folderIdx : Nat) (emailIdx : Option Nat)
    (st : List (Str × Str) × List (Str × Str)) (r : List Str) :
    List (Str × Str) × List (Str × Str) :=
  if r = [] then st
  else
    let folder_raw := if folderIdx < r.length then pyStrip (r.getD folderIdx []) else []
    let email :=
      match emailIdx with
      | some i => if i < r.length then pyStrip (r.getD i []) else pyStrip (r.getLastD [])
      | none => pyStrip (r.getLastD [])
    if folder_raw = [] ∨ email = [] then st
    else
      let cm := (split_path_components folder_raw).foldl (fun cm c =>
        let comp := normalize_component c
        if comp = [] then cm else dinsert cm comp email) st.1
      let pn := normalize_path folder_raw
      (cm, if pn = [] then st.2 else st.2 ++ [(pn, email)])

/-- Model of `metadata_to_csv.read_users_index` from the parsed CSV rows
(the file-system and delimiter-sniffing boundary is external): blank rows
are dropped, the header is detected case-insensitively on the literal
column names `folder` and `email`, and each remaining row feeds both lookup
structures. -/
def read_users_index (rawRows : List (List Str)) : UsersIndex :=
  let rows := rawRows.filter rowNonblank
  match rows with
  | [] => ⟨[], []⟩
  | r0 :: rest =>
    let header := r0.map (fun c => lowerStr (pyStrip c))
    if usersHasHeader header then
      let folderIdx := header.indexOf ("folder".data)
      let emailIdx := header.indexOf ("email".data)
      let st := rest.foldl (usersRowStep folderIdx (some emailIdx)) ([], [])
      ⟨st.1, st.2⟩
    else
      let st := (r0 :: rest).foldl (usersRowStep 0 none) ([], [])
      ⟨st.1, st.2⟩

/-- Top-level path-bearing fields (`CANDIDATE_TOP_LEVEL_FIELDS`). -/
def CANDIDATE_TOP_LEVEL_FIELDS : List Str :=
  ["file_path".data, "txrm_file_path".data, "file_hyperlink".data,
   "source_path".data]

/-- Path-bearing sub-fields of the `calib_images` bucket
(`CANDIDATE_CALIB_FIELDS`). -/
def CANDIDATE_CALIB_FIELDS : List Str :=
  ["MGainImg".data, "OffsetImg".data, "GainImg".data, "DefPixelImg".data,
   "calib_folder_path".data]

/-- The `maybe_add` helper of `gather_candidate_paths`: only string values
are considered, stripped, and dropped when empty or the placeholder
`"N/A"` in any letter case. -/
def maybeAdd (acc : List Str) (v : Json) : List Str :=
  match v with
  | Json.str s =>
    let t := pyStrip s
    if t ≠ [] ∧ lowerStr t ≠ ('n' :: "/a".data) then acc ++ [t] else acc
  | _ => acc

/-- Candidate-path gathering (`metadata_to_csv.gather_candidate_paths`):
the fixed top-level fields, then the fixed sub-fields of `calib_images`
when that bucket is a dict. -/
def gather_candidate_paths (meta : Record) : List Str :=
  let c1 := CANDIDATE_TOP_LEVEL_FIELDS.foldl (fun acc k =>
    match dlookup meta k with
    | some v => maybeAdd acc v
    | none => acc) []
  match dlookup meta ("calib_images".data) with
  | some (Json.obj calib) =>
    CANDIDATE_CALIB_FIELDS.foldl (fun acc k =>
      match dlookup calib k with
      | some v => maybeAdd acc v
      | none => acc) c1
  | _ => c1

/-- Best-match fold step shared by both passes of
`find_user_email_for_record`: a candidate match replaces the state exactly
when its weight strictly exceeds the running best. -/
def bestStep (st : Int × Str) (m : Nat × Str) : Int × Str :=
  if (m.1 : Int) > st.1 then ((m.1 : Int), m.2) else st

/-- Scan of one candidate path (`find_user_email_for_record` lines
210–229): the component pass then the substring pass, threaded through the
`(best_weight, best_email)` state. -/
def scanCandidate (users : UsersIndex) (st : Int × Str) (raw : Str) :
    Int × Str :=
  let full_norm := normalize_path raw
  let comps := (split_path_components raw).map normalize_component
  let st1 := comps.foldl (fun st c =>
    match dlookup users.component_map c with
    | some email => if email ≠ [] then bestStep st (c.length, email) else st
    | none => st) st
  users.path_list.foldl (fun st pe =>
    if pe.1 ≠ [] ∧ containsSub pe.1 full_norm then
      bestStep st (pe.1.length, pe.2)
    else st) st1

/-- User attribution for one record
(`metadata_to_csv.find_user_email_for_record`). -/
def find_user_email_for_record (meta : Record) (users : UsersIndex) : Str :=
  if users.component_map = [] ∧ users.path_list = [] then []
  else
    let candidates := gather_candidate_paths meta
    if candidates = [] then []
    else (candidates.foldl (scanCandidate users) ((-1 : Int), [])).2

/-! ## Basic lemmas about the Python-dict model -/

theorem dlookup_dinsert_self {α β : Type} [DecidableEq α]
    (m : List (α × β)) (k : α) (v : β) : dlookup (dinsert m k v) k = some v := by
  induction m with
  | nil => simp [dinsert, dlookup]
  | cons p rest ih =>
      obtain ⟨k', v'⟩ := p
      by_cases h : k' = k <;> simp [dinsert, dlookup, h, ih]

theorem dlookup_dinsert_ne {α β : Type} [DecidableEq α]
    (m : List (α × β)) (k g : α) (v : β) (hne : g ≠ k) :
    dlookup (dinsert m k v) g = dlookup m g := by
  have hkg : ¬(k = g) := fun h => hne h.symm
  induction m with
  | nil => simp [dinsert, dlookup, hkg]
  | cons p rest ih =>
      obtain ⟨k', v'⟩ := p
      by_cases h : k' = k
      · subst h
        simp [dinsert, dlookup, hkg]
      · simp only [dinsert, if_neg h, dlookup]
        by_cases h2 : k' = g <;> simp [h2, ih]

theorem dkeys_dinsert {α β : Type} [DecidableEq α]
    (m : List (α × β)) (k : α) (v : β) :
    dkeys (dinsert m k v)
      = if k ∈ dkeys m then dkeys m else dkeys m ++ [k] := by
  induction m with
  | nil => simp [dinsert, dkeys]
  | cons p rest ih =>
      obtain ⟨k', v'⟩ := p
      by_cases h : k' = k
      · simp [dinsert, h, dkeys]
      · have hne : ¬(k = k') := fun hh => h hh.symm
        simp only [dkeys] at ih
        simp only [dinsert, if_neg h, dkeys, List.map_cons, List.mem_cons, ih]
        by_cases h2 : k ∈ List.map Prod.fst rest <;> simp [h2, hne]

theorem dkeys_dinsert_nodup {α β : Type} [DecidableEq α]
    (m : List (α × β)) (k : α) (v : β) (h : (dkeys m).Nodup) :
    (dkeys (dinsert m k v)).Nodup := by
  rw [dkeys_dinsert]
  by_cases hmem : k ∈ dkeys m
  · simpa [hmem] using h
  · rw [if_neg hmem]
    refine List.Nodup.append h (List.nodup_singleton k) ?_
    intro a ha hb
    simp only [List.mem_singleton] at hb
    subst hb
    exact hmem ha

theorem dlookup_dremove_ne {α β : Type} [DecidableEq α]
    (m : List (α × β)) (k g : α) (hne : g ≠ k) :
    dlookup (dremove m k) g = dlookup m g := by
  induction m with
  | nil => simp [dremove, dlookup]
  | cons p rest ih =>
      obtain ⟨k', v'⟩ := p
      by_cases h : k' = k
      · subst h
        have : ¬(k' = g) := fun hh => hne hh.symm
        simp [dremove, dlookup, this, ih]
      · by_cases h2 : k' = g <;> simp [dremove, dlookup, h, h2, hne, ih]

theorem dlookup_dremove_self {α β : Type} [DecidableEq α]
    (m : List (α × β)) (k : α) : dlookup (dremove m k) k = none := by
  induction m with
  | nil => simp [dremove, dlookup]
  | cons p rest ih =>
      obtain ⟨k', v'⟩ := p
      by_cases h : k' = k <;> simp [dremove, dlookup, h, ih]

/-! ## C3: treatment of null and empty-string identity-field values -/

/-- Specification-side key from the spec's words for `record_key`: the first
priority field present with a non-null, non-empty-string value gives
`"<field>:<value>"`, otherwise the canonical content hash. -/
def specC3RecordKey (item : Record) : Str :=
  match PRIORITY_KEYS.findSome? (fun f =>
    match dlookup item f with
    | some v =>
      if v = Json.null ∨ v = Json.str [] then none
      else some (f ++ ':' :: pyStr v)
    | none => none) with
  | some k => k
  | none => hashKey item

/-- Specification-side key describing what `dedupe_key` actually does: only a
missing or null value is skipped; an empty string is accepted. -/
def specC3DedupeKey (item : Record) : Str :=
  match PRIORITY_KEYS.findSome? (fun f =>
    match dlookup item f with
    | some v => if v = Json.null then none else some (f ++ ':' :: pyStr v)
    | none => none) with
  | some k => k
  | none => hashKey item

theorem rkScan_eq_findSome (item : Record) : ∀ ks : List Str,
    rkScan item ks = ks.findSome? (fun f =>
      match dlookup item f with
      | some v =>
        if v = Json.null ∨ v = Json.str [] then none
        else some (f ++ ':' :: pyStr v)
      | none => none)
  | [] => by simp [rkScan]
  | k :: rest => by
      rw [List.findSome?_cons]
      cases h : dlookup item k with
      | none => simp [rkScan, h, rkScan_eq_findSome item rest]
      | some v =>
          by_cases hv : v = Json.null ∨ v = Json.str [] <;>
            simp [rkScan, h, hv, rkScan_eq_findSome item rest]

theorem dkScan_eq_findSome (item : Record) : ∀ ks : List Str,
    dkScan item ks = ks.findSome? (fun f =>
      match dlookup item f with
      | some v => if v = Json.null then none else some (f ++ ':' :: pyStr v)
      | none => none)
  | [] => by simp [dkScan]
  | k :: rest => by
      rw [List.findSome?_cons]
      cases h : dlookup item k with
      | none => simp [dkScan, h, dkScan_eq_findSome item rest]
      | some v =>
          by_cases hv : v = Json.null <;>
            simp [dkScan, h, hv, dkScan_eq_findSome item rest]

/-- C3 (corrected, counterexample): the claim says a priority field holding
the empty string is treated as absent and the search continues; but
`dedupe_key` of `aggregate_json.py` accepts the empty string: on
`{"id": "", "uuid": "u"}` it returns `"id:"` — a key built from an
empty-string value — instead of continuing to `"uuid:u"`. -/
theorem c3_counterexample :
    dedupe_key [("id".data, Json.str []), ("uuid".data, Json.str ('u' :: []))]
      = ('i' :: 'd' :: ':' :: []) ∧
    ('i' :: 'd' :: ':' :: []) ≠ ('u' :: "uid:u".data) := by
  constructor
  · rfl
  · decide

/-- C3 (amended): `record_key` of `aggregate_metadata.py` does treat null
and empty-string priority-field values as absent, continuing down the
priority list and falling through to the SHA-256 hash; `dedupe_key` of
`aggregate_json.py` skips only missing/null values and accepts an empty
string, returning `"<field>:"` for it. -/
theorem c3_empty_identity_values :
    (∀ item : Record, record_key item = specC3RecordKey item) ∧
    (∀ item : Record, dedupe_key item = specC3DedupeKey item) ∧
    (∀ item : Record, dlookup item ("id".data) = some (Json.str []) →
      dedupe_key item = ('i' :: 'd' :: ':' :: [])) := by
  refine ⟨fun item => ?_, fun item => ?_, fun item h => ?_⟩
  · rw [record_key, specC3RecordKey, rkScan_eq_findSome]
  · rw [dedupe_key, specC3DedupeKey, dkScan_eq_findSome]
  · simp [dedupe_key, PRIORITY_KEYS, dkScan, h, pyStr]

/-- C3 witness: the amended claim instantiated on `{"id": ""}`. -/
theorem c3_empty_identity_values_witness :
    dlookup [(("id".data), Json.str [])] ("id".data) = some (Json.str []) ∧
    dedupe_key [(("id".data), Json.str [])] = ('i' :: 'd' :: ':' :: []) := by
  refine ⟨by decide, c3_empty_identity_values.2.2 _ (by decide)⟩

/-! ## C7: loading a malformed existing store -/

/-- C7 (corrected, counterexample): a store file whose content parses as a
JSON object — hence not as a JSON array of objects — is not treated as an
empty store: `aggregate_metadata.load_existing` wraps it as a one-record
store. -/
theorem c7_counterexample :
    load_existing (some (Json.obj [("id".data, Json.str ('x' :: []))]))
      = [Json.obj [("id".data, Json.str ('x' :: []))]] ∧
    [Json.obj [("id".data, Json.str ('x' :: []))]] ≠ ([] : List Json) := by
  exact ⟨rfl, List.cons_ne_nil _ _⟩

/-- C7 (amended): only content that fails to parse as JSON at all (or, for
`aggregate_json`, parses as a non-array) yields the empty store.  Content
that parses as JSON but is not an array of objects is not always empty:
`load_existing` wraps a top-level object as a one-record store and returns
any array verbatim, and `aggregate_json` keeps the object elements of a
mixed array while silently dropping the rest (a partial load). -/
theorem c7_malformed_store :
    load_existing none = [] ∧
    existingOfParse none = [] ∧
    (∀ j : Json, (∀ xs, j ≠ Json.arr xs) → existingOfParse (some j) = []) ∧
    (∀ r : Record, load_existing (some (Json.obj r)) = [Json.obj r]) ∧
    (∀ xs : List Json, load_existing (some (Json.arr xs)) = xs) ∧
    (∀ r : Record, existingOfParse (some (Json.arr [Json.obj r, Json.int 5]))
      = [(dedupe_key r, r)]) := by
  refine ⟨rfl, rfl, fun j h => ?_, fun r => rfl, fun xs => rfl, fun r => ?_⟩
  · cases j with
    | null => rfl
    | bool b => rfl
    | int n => rfl
    | str s => rfl
    | arr xs => exact absurd rfl (h xs)
    | obj kvs => rfl
  · rfl

/-- C7 witness: the amended claim instantiated on a boolean store content
(parses as JSON, is not an array, yields the empty store). -/
theorem c7_malformed_store_witness :
    existingOfParse (some (Json.bool true)) = [] :=
  c7_malformed_store.2.2.1 (Json.bool true) (fun _ h => Json.noConfusion h)

/-! ## C9: stripping of the `file:` URI prefix -/

/-- A run of `n` forward slashes. -/
def slashes (n : Nat) : Str := List.replicate n '/'

/-- Number of slashes the regex group `(/{2,3})?` actually consumes after
`file:` when `n` slashes follow. -/
def stripCount (n : Nat) : Nat := if 3 ≤ n then 3 else if n = 2 then 2 else 0

theorem dropWhile_eq_self_of_head {l : Str} {c : Char}
    (hc : l.head? = some c) (hw : isWs c = false) :
    l.dropWhile isWs = l := by
  cases l with
  | nil => rfl
  | cons a t =>
      simp only [List.head?_cons, Option.some.injEq] at hc
      subst hc
      simp [List.dropWhile_cons, hw]

theorem rstrip_head_cases (s : Str) :
    rstrip s = [] ∨ (rstrip s).head? = s.head? := by
  cases s with
  | nil => left; rfl
  | cons c t =>
      rw [rstrip, show (c :: t).reverse = t.reverse ++ [c] from by simp,
        List.dropWhile_append]
      by_cases h : (t.reverse.dropWhile isWs).isEmpty = true
      · rw [if_pos h]
        by_cases hw : isWs c
        · left; simp [List.dropWhile_cons, hw]
        · right; simp [List.dropWhile_cons, hw]
      · rw [if_neg h]
        right
        simp

theorem rstrip_fileSlashes (n : Nat) (s : Str) :
    rstrip (('f' :: "ile:".data) ++ (slashes n ++ s))
      = ('f' :: "ile:".data) ++ (slashes n ++ rstrip s) := by
  have hWrev : (('f' :: "ile:".data) ++ slashes n).reverse.dropWhile isWs
      = (('f' :: "ile:".data) ++ slashes n).reverse := by
    cases n with
    | zero =>
        apply dropWhile_eq_self_of_head (c := ':') _ (by decide)
        rfl
    | succ m =>
        apply dropWhile_eq_self_of_head (c := '/') _ (by decide)
        rw [List.reverse_append, show slashes (m + 1) = '/' :: slashes m from rfl]
        rw [show ('/' :: slashes m).reverse = (slashes m).reverse ++ ['/'] from by
          simp]
        cases hrev : (slashes m).reverse with
        | nil => rfl
        | cons a t =>
            have ha : a = '/' := by
              have := List.mem_reverse.mp (hrev ▸ List.mem_cons_self a t)
              exact List.eq_of_mem_replicate this
            simp [hrev, ha]
  have hassoc : ('f' :: "ile:".data) ++ (slashes n ++ s)
      = (('f' :: "ile:".data) ++ slashes n) ++ s := by simp
  rw [rstrip, hassoc, List.reverse_append, List.dropWhile_append]
  by_cases h : (s.reverse.dropWhile isWs).isEmpty = true
  · rw [if_pos h, hWrev]
    have hs : rstrip s = [] := by
      rw [rstrip]
      rcases List.isEmpty_iff.mp h with hnil
      simp [hnil]
    simp [hs]
  · rw [if_neg h]
    rw [List.reverse_append]
    have : rstrip s = (s.reverse.dropWhile isWs).reverse := rfl
    simp [this]

theorem takeWhile_slashes (n : Nat) (s : Str) (hs : s.head? ≠ some '/') :
    List.takeWhile (fun c => c = '/') (slashes n ++ s) = slashes n := by
  induction n with
  | zero =>
      cases s with
      | nil => rfl
      | cons c t =>
          simp only [List.head?_cons] at hs
          have hc : ¬(c = '/') := fun hh => hs (by rw [hh])
          simp [slashes, List.takeWhile_cons, hc]
  | succ m ih =>
      simp [slashes, List.replicate_succ, List.takeWhile_cons] at ih ⊢
      exact ih

theorem stripFileColon_eval (n : Nat) (s : Str) (hs : s.head? ≠ some '/') :
    stripFileColon (('f' :: "ile:".data) ++ (slashes n ++ s))
      = slashes (n - stripCount n) ++ s := by
  have htake : (('f' :: "ile:".data) ++ (slashes n ++ s)).take 5
      = ('f' :: "ile:".data) := rfl
  have hdrop : (('f' :: "ile:".data) ++ (slashes n ++ s)).drop 5
      = slashes n ++ s := rfl
  simp only [stripFileColon]
  rw [htake, if_pos (show lowerStr ('f' :: "ile:".data) = 'f' :: "ile:".data by decide),
    hdrop, takeWhile_slashes n s hs,
    show (slashes n).length = n from by simp [slashes]]
  have hdropSl : ∀ (k : Nat) (m : Nat), k ≤ m →
      List.drop k (slashes m ++ s) = slashes (m - k) ++ s := by
    intro k
    induction k with
    | zero => intro m _; simp
    | succ j ih =>
        intro m hm
        cases m with
        | zero => exact absurd hm (by omega)
        | succ mm =>
            rw [show slashes (mm + 1) = '/' :: slashes mm from rfl]
            simp only [List.cons_append, List.drop_succ_cons]
            rw [ih mm (by omega), Nat.succ_sub_succ]
  by_cases h3 : 3 ≤ n
  · rw [if_pos h3, hdropSl 3 n h3]
    simp [stripCount, h3]
  · rw [if_neg h3]
    by_cases h2 : n = 2
    · subst h2
      rw [if_pos rfl, hdropSl 2 2 (by omega)]
      simp [stripCount]
    · rw [if_neg h2]
      simp [stripCount, h3, h2]

/-- C9 (corrected, counterexample): the claim says `normalizePath` removes
the whole `file:` prefix including all `n` slashes for any `n ≥ 0`, which
would send `"file:/a"` to `"a"`; the regex group `(/{2,3})?` leaves the
single slash in place, producing `"/a"`. -/
theorem c9_counterexample :
    normalize_path ("file:/a".data) = ('/' :: 'a' :: []) ∧
    normalize_path ("file:/a".data) ≠ ('a' :: []) := by
  constructor
  · rfl
  · decide

/-- C9 (amended): `normalize_path` strips `file:` followed by exactly two or
three slashes (three when at least three are present, two when exactly two,
none otherwise); a single slash survives the prefix strip, and of four or
more slashes only three are stripped, the rest being left to the later
slash-collapsing stage. -/
theorem c9_uri_slash_stripping (n : Nat) (s : Str) (hs : s.head? ≠ some '/') :
    normalize_path (('f' :: "ile:".data) ++ (slashes n ++ s))
      = npPost (slashes (n - stripCount n) ++ rstrip s) := by
  have hstrip : pyStrip (('f' :: "ile:".data) ++ (slashes n ++ s))
      = ('f' :: "ile:".data) ++ (slashes n ++ rstrip s) := by
    rw [pyStrip, show lstrip (('f' :: "ile:".data) ++ (slashes n ++ s))
      = ('f' :: "ile:".data) ++ (slashes n ++ s) from by
        simp [lstrip, List.dropWhile_cons, show isWs 'f' = false from rfl]]
    exact rstrip_fileSlashes n s
  have hshead : (rstrip s).head? ≠ some '/' := by
    rcases rstrip_head_cases s with h | h
    · rw [h]; simp
    · rw [h]; exact hs
  rw [normalize_path, hstrip, stripFileColon_eval n (rstrip s) hshead]

/-- C9 witness: the amended claim instantiated at `n = 1`, showing the
surviving slash on `"file:/a"`. -/
theorem c9_uri_slash_stripping_witness :
    ("a".data.head? ≠ some '/') ∧
    normalize_path (('f' :: "ile:".data) ++ (slashes 1 ++ "a".data))
      = npPost (slashes 1 ++ rstrip ("a".data)) := by
  refine ⟨by decide, ?_⟩
  have h := c9_uri_slash_stripping 1 ("a".data) (by decide)
  simpa [stripCount] using h

/-! ## C8: roster header detection -/

/-- C8 (corrected, counterexample): a roster headed `name,email` is not
indexed like one headed `folder,email`: the `name` header row is itself
indexed as a data row (mapping component `name` to identity `email`), since
header detection requires the literal column name `folder`. -/
theorem c8_counterexample :
    dlookup (read_users_index [["name".data, "email".data],
      ["fics".data, "a@x.com".data]]).component_map ("name".data)
      = some ("email".data) ∧
    read_users_index [["name".data, "email".data], ["fics".data, "a@x.com".data]]
      ≠ read_users_index [["folder".data, "email".data],
          ["fics".data, "a@x.com".data]] := by
  constructor
  · rfl
  · decide

/-- C8 (amended): header detection is case-insensitive (the first row's
cells are stripped and lower-cased before comparison) but requires the
literal column names `folder` and `email`; `name` is not accepted as a
synonym, so a roster headed `name,email` is processed as headerless and its
header row is indexed as a data row. -/
theorem c8_header_detection :
    (∀ (c1 c2 : Str) (rest : List (List Str)),
      lowerStr (pyStrip c1) = "folder".data →
      lowerStr (pyStrip c2) = "email".data →
      read_users_index ([c1, c2] :: rest)
        = read_users_index (["folder".data, "email".data] :: rest)) ∧
    read_users_index [["name".data, "email".data], ["fics".data, "a@x.com".data]]
      = ⟨[("name".data, "email".data), ("fics".data, "a@x.com".data)],
         [("name".data, "email".data), ("fics".data, "a@x.com".data)]⟩ ∧
    read_users_index [["folder".data, "email".data], ["fics".data, "a@x.com".data]]
      = ⟨[("fics".data, "a@x.com".data)], [("fics".data, "a@x.com".data)]⟩ := by
  refine ⟨fun c1 c2 rest h1 h2 => ?_, by decide, by decide⟩
  have hc1 : rowNonblank [c1, c2] = true := by
    cases hp : pyStrip c1 with
    | nil => rw [hp] at h1; exact absurd h1 (by decide)
    | cons a t => simp [rowNonblank, hp]
  have hc2 : rowNonblank ["folder".data, "email".data] = true := by decide
  rw [read_users_index, read_users_index]
  simp only [List.filter_cons, hc1, hc2, if_true, List.map_cons, List.map_nil]
  rw [h1, h2, show lowerStr (pyStrip ("folder".data)) = "folder".data from by decide,
    show lowerStr (pyStrip ("email".data)) = "email".data from by decide]
  simp only [show usersHasHeader ["folder".data, "email".data] = true from by decide,
    if_true]

/-- C8 witness: the amended claim instantiated on a case-variant header
`" FoLdEr ", "EMAIL"`. -/
theorem c8_header_detection_witness :
    lowerStr (pyStrip " FoLdEr ".data) = "folder".data ∧
    read_users_index ([" FoLdEr ".data, "EMAIL".data] ::
        [["fics".data, "a@x.com".data]])
      = read_users_index (["folder".data, "email".data] ::
          [["fics".data, "a@x.com".data]]) :=
  ⟨by decide, c8_header_detection.1 _ _ _ (by decide) (by decide)⟩

/-! ## C5: flattening of nested records -/

theorem mem_dinsert {α β : Type} [DecidableEq α]
    (m : List (α × β)) (k : α) (v : β) (q : α × β) (h : q ∈ dinsert m k v) :
    q.2 = v ∨ q ∈ m := by
  induction m with
  | nil =>
      simp [dinsert] at h
      subst h
      left; rfl
  | cons p rest ih =>
      obtain ⟨k', v'⟩ := p
      by_cases hk : k' = k
      · simp only [dinsert, if_pos hk] at h
        rcases List.mem_cons.mp h with h1 | h1
        · left; rw [h1]
        · right; exact List.mem_cons_of_mem _ h1
      · simp only [dinsert, if_neg hk] at h
        rcases List.mem_cons.mp h with h1 | h1
        · right; rw [h1]; exact List.mem_cons_self _ _
        · rcases ih h1 with h2 | h2
          · left; exact h2
          · right; exact List.mem_cons_of_mem _ h2

theorem flatten_dict_no_obj : ∀ (l : List (Str × Json)) (pfx : Str)
    (out : List (Str × Json)),
    (∀ q ∈ out, ∀ kvs, q.2 ≠ Json.obj kvs) →
    ∀ q ∈ flatten_dict l pfx out, ∀ kvs, q.2 ≠ Json.obj kvs := by
  intro l pfx out
  induction l, pfx, out using flatten_dict.induct with
  | case1 pfx out =>
      intro hout q hq
      simp only [flatten_dict] at hq
      exact hout q hq
  | case2 k rest pfx out key r ih1 ih2 ih3 =>
      intro hout q hq
      simp only [flatten_dict] at hq
      exact ih3 (ih1 hout) q hq
  | case3 k rest pfx out key v hv ih =>
      intro hout q hq
      have hstep : ∀ p ∈ dinsert out (if pfx = [] then k else pfx ++ '.' :: k) v,
          ∀ kvs, p.2 ≠ Json.obj kvs := by
        intro p hp kvs hpk
        rcases mem_dinsert out _ v p hp with h1 | h1
        · exact hv kvs (h1 ▸ hpk)
        · exact hout p h1 kvs hpk
      cases v with
      | obj r => exact absurd rfl (hv r)
      | null => simp only [flatten_dict] at hq; exact ih hstep q hq
      | bool b => simp only [flatten_dict] at hq; exact ih hstep q hq
      | int n => simp only [flatten_dict] at hq; exact ih hstep q hq
      | str s => simp only [flatten_dict] at hq; exact ih hstep q hq
      | arr xs => simp only [flatten_dict] at hq; exact ih hstep q hq

/-- C5 (confirmed): `flatten_dict` produces no nested-mapping values, keys
scalars by their dotted path with no leading dot at depth 0, and on the
spec's example `{"a": 1, "b": {"c": 2, "d": 3}}` yields exactly
`{"a": 1, "b.c": 2, "b.d": 3}`; a depth-three record flattens to its full
dotted path. -/
theorem c5_flatten_shape :
    (∀ (d : List (Str × Json)) (q : Str × Json), q ∈ flattenRec d →
      ∀ kvs, q.2 ≠ Json.obj kvs) ∧
    flattenRec [("a".data, Json.int 1),
      ("b".data, Json.obj [("c".data, Json.int 2), ("d".data, Json.int 3)])]
      = [("a".data, Json.int 1), ("b.c".data, Json.int 2),
         ("b.d".data, Json.int 3)] ∧
    flattenRec [("x".data, Json.obj [("y".data,
        Json.obj [("z".data, Json.int 5)])])]
      = [("x.y.z".data, Json.int 5)] := by
  refine ⟨fun d q hq => ?_, ?_, ?_⟩
  · exact flatten_dict_no_obj d [] [] (fun p hp => absurd hp (List.not_mem_nil p))
      q hq
  · simp [flattenRec, flatten_dict, dinsert]
  · simp [flattenRec, flatten_dict, dinsert]

/-- C5 witness: the no-nested-values invariant applied to the spec's example
record at the entry for key `a`. -/
theorem c5_flatten_shape_witness :
    (("a".data, Json.int 1) ∈ flattenRec [("a".data, Json.int 1),
      ("b".data, Json.obj [("c".data, Json.int 2), ("d".data, Json.int 3)])]) ∧
    (("a".data, Json.int 1) : Str × Json).2 ≠ Json.obj [] := by
  constructor
  · rw [c5_flatten_shape.2.1]
    exact List.mem_cons_self _ _
  · exact c5_flatten_shape.1 [("a".data, Json.int 1),
      ("b".data, Json.obj [("c".data, Json.int 2), ("d".data, Json.int 3)])]
      ("a".data, Json.int 1)
      (by rw [c5_flatten_shape.2.1]; exact List.mem_cons_self _ _) []

/-! ## C10: candidate gathering skips unusable values -/

/-- A candidate-field value that `maybe_add` silently skips: any non-string,
and a string that strips to empty or to the placeholder `n/a` in any letter
case. -/
def badCand (v : Json) : Bool :=
  match v with
  | Json.str s =>
    (pyStrip s).isEmpty || lowerStr (pyStrip s) = ('n' :: "/a".data)
  | _ => true

theorem maybeAdd_bad (acc : List Str) (v : Json) (h : badCand v = true) :
    maybeAdd acc v = acc := by
  cases v with
  | str s =>
      simp only [badCand, Bool.or_eq_true, List.isEmpty_iff,
        decide_eq_true_eq] at h
      rcases h with h | h <;> simp [maybeAdd, h]
  | null => rfl
  | bool b => rfl
  | int n => rfl
  | arr xs => rfl
  | obj kvs => rfl

theorem find_congr (m1 m2 : Record) (users : UsersIndex)
    (h : gather_candidate_paths m1 = gather_candidate_paths m2) :
    find_user_email_for_record m1 users = find_user_email_for_record m2 users := by
  rw [find_user_email_for_record, find_user_email_for_record, h]

/-- C10 (confirmed): a path-bearing field whose value is not a string, or is
an empty/`"N/A"` string, is silently skipped by candidate gathering, at
top level and inside the `calib_images` bucket, and a non-dict
`calib_images` is skipped entirely; consequently such values never
influence the chosen identity (removing them changes neither the gathered
candidates nor the attribution result, which is total by construction). -/
theorem c10_bad_candidate_values_ignored :
    (∀ (meta : Record) (users : UsersIndex) (f : Str) (v : Json),
      f ∈ CANDIDATE_TOP_LEVEL_FIELDS → dlookup meta f = some v →
      badCand v = true →
      gather_candidate_paths (dremove meta f) = gather_candidate_paths meta ∧
      find_user_email_for_record (dremove meta f) users
        = find_user_email_for_record meta users) ∧
    (∀ (meta : Record) (users : UsersIndex) (calib : List (Str × Json))
        (f : Str) (v : Json),
      dlookup meta ("calib_images".data) = some (Json.obj calib) →
      f ∈ CANDIDATE_CALIB_FIELDS → dlookup calib f = some v →
      badCand v = true →
      gather_candidate_paths
          (dinsert meta ("calib_images".data) (Json.obj (dremove calib f)))
        = gather_candidate_paths meta ∧
      find_user_email_for_record
          (dinsert meta ("calib_images".data) (Json.obj (dremove calib f))) users
        = find_user_email_for_record meta users) ∧
    (∀ (meta : Record) (users : UsersIndex) (v : Json),
      dlookup meta ("calib_images".data) = some v →
      (∀ kvs, v ≠ Json.obj kvs) →
      gather_candidate_paths (dremove meta ("calib_images".data))
        = gather_candidate_paths meta ∧
      find_user_email_for_record (dremove meta ("calib_images".data)) users
        = find_user_email_for_record meta users) := by
  refine ⟨fun meta users f v hf hlook hbad => ?_,
    fun meta users calib f v hcal hf hlook hbad => ?_,
    fun meta users v hcal hnobj => ?_⟩
  · have hg : gather_candidate_paths (dremove meta f)
        = gather_candidate_paths meta := by
      simp only [CANDIDATE_TOP_LEVEL_FIELDS, List.mem_cons,
        List.not_mem_nil, or_false] at hf
      rcases hf with hf | hf | hf | hf <;> subst hf <;>
        · simp only [gather_candidate_paths, CANDIDATE_TOP_LEVEL_FIELDS,
            List.foldl_cons, List.foldl_nil]
          rw [dlookup_dremove_self meta _, hlook,
            dlookup_dremove_ne meta _ ("calib_images".data) (by decide)]
          first
          | rw [dlookup_dremove_ne meta _ ("file_path".data) (by decide)]
          | skip
          first
          | rw [dlookup_dremove_ne meta _ ("txrm_file_path".data) (by decide)]
          | skip
          first
          | rw [dlookup_dremove_ne meta _ ("file_hyperlink".data) (by decide)]
          | skip
          first
          | rw [dlookup_dremove_ne meta _ ("source_path".data) (by decide)]
          | skip
          dsimp only
          rw [maybeAdd_bad _ v hbad]
    exact ⟨hg, find_congr _ _ users hg⟩
  · have hg : gather_candidate_paths
        (dinsert meta ("calib_images".data) (Json.obj (dremove calib f)))
        = gather_candidate_paths meta := by
      simp only [gather_candidate_paths, CANDIDATE_TOP_LEVEL_FIELDS,
        List.foldl_cons, List.foldl_nil]
      rw [dlookup_dinsert_ne meta _ ("file_path".data) _ (by decide),
        dlookup_dinsert_ne meta _ ("txrm_file_path".data) _ (by decide),
        dlookup_dinsert_ne meta _ ("file_hyperlink".data) _ (by decide),
        dlookup_dinsert_ne meta _ ("source_path".data) _ (by decide),
        dlookup_dinsert_self meta ("calib_images".data) _, hcal]
      dsimp only [CANDIDATE_CALIB_FIELDS, List.foldl_cons, List.foldl_nil]
      simp only [CANDIDATE_CALIB_FIELDS, List.mem_cons,
        List.not_mem_nil, or_false] at hf
      rcases hf with hf | hf | hf | hf | hf <;> subst hf <;>
        · rw [dlookup_dremove_self calib _, hlook]
          first
          | rw [dlookup_dremove_ne calib _ ("MGainImg".data) (by decide)]
          | skip
          first
          | rw [dlookup_dremove_ne calib _ ("OffsetImg".data) (by decide)]
          | skip
          first
          | rw [dlookup_dremove_ne calib _ ("GainImg".data) (by decide)]
          | skip
          first
          | rw [dlookup_dremove_ne calib _ ("DefPixelImg".data) (by decide)]
          | skip
          first
          | rw [dlookup_dremove_ne calib _ ("calib_folder_path".data) (by decide)]
          | skip
          dsimp only
          rw [maybeAdd_bad _ v hbad]
    exact ⟨hg, find_congr _ _ users hg⟩
  · have hg : gather_candidate_paths (dremove meta ("calib_images".data))
        = gather_candidate_paths meta := by
      simp only [gather_candidate_paths, CANDIDATE_TOP_LEVEL_FIELDS,
        List.foldl_cons, List.foldl_nil]
      rw [dlookup_dremove_ne meta _ ("file_path".data) (by decide),
        dlookup_dremove_ne meta _ ("txrm_file_path".data) (by decide),
        dlookup_dremove_ne meta _ ("file_hyperlink".data) (by decide),
        dlookup_dremove_ne meta _ ("source_path".data) (by decide),
        dlookup_dremove_self meta ("calib_images".data), hcal]
      cases v with
      | obj kvs => exact absurd rfl (hnobj kvs)
      | null => rfl
      | bool b => rfl
      | int n => rfl
      | str s => rfl
      | arr xs => rfl
    exact ⟨hg, find_congr _ _ users hg⟩

/-- C10 witness: a numeric `file_path` does not influence attribution. -/
theorem c10_bad_candidate_values_ignored_witness :
    dlookup [(("file_path".data), Json.int 7)] ("file_path".data)
      = some (Json.int 7) ∧
    badCand (Json.int 7) = true ∧
    find_user_email_for_record
        (dremove [(("file_path".data), Json.int 7)] ("file_path".data))
        ⟨[("fics".data, "a@x.com".data)], []⟩
      = find_user_email_for_record [(("file_path".data), Json.int 7)]
          ⟨[("fics".data, "a@x.com".data)], []⟩ :=
  ⟨by decide, by decide,
    (c10_bad_candidate_values_ignored.1 [(("file_path".data), Json.int 7)]
      ⟨[("fics".data, "a@x.com".data)], []⟩ ("file_path".data) (Json.int 7)
      (by decide) (by decide) (by decide)).2⟩

/-! ## C6: most-specific attribution match -/

/-- All matches contributed by one candidate path, in scan order: the
component pass (weight: length of the normalized component) followed by the
substring pass (weight: length of the normalized roster path). -/
def candMatches (users : UsersIndex) (raw : Str) : List (Nat × Str) :=
  ((split_path_components raw).map normalize_component).filterMap (fun c =>
    match dlookup users.component_map c with
    | some email => if email ≠ [] then some (c.length, email) else none
    | none => none) ++
  users.path_list.filterMap (fun pe =>
    if pe.1 ≠ [] ∧ containsSub pe.1 (normalize_path raw) then
      some (pe.1.length, pe.2)
    else none)

/-- All matches found for all candidates of a record, in scan order. -/
def specMatches (meta : Record) (users : UsersIndex) : List (Nat × Str) :=
  (gather_candidate_paths meta).flatMap (candMatches users)

/-- The greatest weight among a list of matches (`-1` when there is none,
mirroring the scan's initial best weight). -/
def maxWeight (ms : List (Nat × Str)) : Int :=
  ms.foldr (fun m acc => max (m.1 : Int) acc) (-1)

/-- Specification-side selection from the claim's words: the identity of
the first match attaining the strictly greatest weight, or the empty string
when there is no match at all. -/
def specSelect (ms : List (Nat × Str)) : Str :=
  match ms.find? (fun m => (m.1 : Int) = maxWeight ms) with
  | some m => m.2
  | none => []

theorem comp_fold_eq (cm : List (Str × Str)) :
    ∀ (comps : List Str) (st : Int × Str),
    comps.foldl (fun st c =>
      match dlookup cm c with
      | some email => if email ≠ [] then bestStep st (c.length, email) else st
      | none => st) st
    = (comps.filterMap (fun c =>
        match dlookup cm c with
        | some email => if email ≠ [] then some (c.length, email) else none
        | none => none)).foldl bestStep st
  | [], st => rfl
  | c :: rest, st => by
      rw [List.foldl_cons, List.filterMap_cons]
      cases h : dlookup cm c with
      | none => exact comp_fold_eq cm rest st
      | some email =>
          by_cases he : email = []
          · simpa [he] using comp_fold_eq cm rest st
          · simpa [he] using comp_fold_eq cm rest (bestStep st (c.length, email))

theorem path_fold_eq (pl : List (Str × Str)) (fn : Str) :
    ∀ (st : Int × Str),
    pl.foldl (fun st pe =>
      if pe.1 ≠ [] ∧ containsSub pe.1 fn then bestStep st (pe.1.length, pe.2)
      else st) st
    = (pl.filterMap (fun pe =>
        if pe.1 ≠ [] ∧ containsSub pe.1 fn then some (pe.1.length, pe.2)
        else none)).foldl bestStep st := by
  induction pl with
  | nil => intro st; rfl
  | cons pe rest ih =>
      intro st
      rw [List.foldl_cons, List.filterMap_cons]
      by_cases h : pe.1 ≠ [] ∧ containsSub pe.1 fn <;>
        simp [h, ih, List.foldl_cons]

theorem scanCandidate_eq (users : UsersIndex) (st : Int × Str) (raw : Str) :
    scanCandidate users st raw = (candMatches users raw).foldl bestStep st := by
  rw [scanCandidate, candMatches, List.foldl_append, comp_fold_eq,
    path_fold_eq]

theorem fold_scan_eq (users : UsersIndex) :
    ∀ (cands : List Str) (st : Int × Str),
    cands.foldl (scanCandidate users) st
      = (cands.flatMap (candMatches users)).foldl bestStep st
  | [], st => rfl
  | raw :: rest, st => by
      rw [List.foldl_cons, List.flatMap_cons, List.foldl_append,
        scanCandidate_eq, fold_scan_eq users rest]

theorem maxWeight_nonneg (m : Nat × Str) (ms : List (Nat × Str))
    (h : m ∈ ms) : (0 : Int) ≤ maxWeight ms := by
  induction ms with
  | nil => exact absurd h (List.not_mem_nil m)
  | cons x rest ih =>
      rcases List.mem_cons.mp h with h1 | h1
      · subst h1
        calc (0 : Int) ≤ (m.1 : Int) := Int.natCast_nonneg _
          _ ≤ max (m.1 : Int) (maxWeight rest) := le_max_left _ _
      · calc (0 : Int) ≤ maxWeight rest := ih h1
          _ ≤ max ((x.1 : Int)) (maxWeight rest) := le_max_right _ _

theorem maxWeight_attained (ms : List (Nat × Str)) (h : -1 < maxWeight ms) :
    (ms.find? (fun m => (m.1 : Int) = maxWeight ms)).isSome = true := by
  induction ms with
  | nil => exact absurd h (by simp [maxWeight])
  | cons x rest ih =>
      rw [List.find?_cons]
      have hmw : maxWeight (x :: rest) = max ((x.1 : Int)) (maxWeight rest) := rfl
      by_cases hx : ((x.1 : Int) = maxWeight (x :: rest))
      · simp [hx]
      · have hmax : maxWeight (x :: rest) = maxWeight rest := by
          rcases max_choice ((x.1 : Int)) (maxWeight rest) with h1 | h1
          · exact absurd (hmw.trans h1).symm hx
          · exact hmw.trans h1
        have hb : decide ((x.1 : Int) = maxWeight (x :: rest)) = false := by
          simp only [decide_eq_false_iff_not]
          exact hx
        rw [hb]
        have hrest : -1 < maxWeight rest := by rw [hmax] at h; exact h
        have := ih hrest
        rw [hmax]
        exact this

theorem fold_bestStep_spec : ∀ (ms : List (Nat × Str)) (b : Int) (e : Str),
    -1 ≤ b →
    ms.foldl bestStep (b, e)
      = if maxWeight ms ≤ b then (b, e)
        else (maxWeight ms,
          ((ms.find? (fun m => (m.1 : Int) = maxWeight ms)).map Prod.snd).getD e)
  | [], b, e, hb => by
      rw [List.foldl_nil, if_pos (show maxWeight [] ≤ b from hb)]
  | m :: ms, b, e, hb => by
      have hmw : maxWeight (m :: ms) = max ((m.1 : Int)) (maxWeight ms) := rfl
      rw [List.foldl_cons]
      by_cases hab : (m.1 : Int) > b
      · rw [show bestStep (b, e) m = ((m.1 : Int), m.2) from by
          simp [bestStep, hab]]
        rw [fold_bestStep_spec ms ((m.1 : Int)) m.2
          (le_trans (by omega) (Int.natCast_nonneg _))]
        by_cases hWa : maxWeight ms ≤ (m.1 : Int)
        · rw [if_pos hWa]
          have hmax : maxWeight (m :: ms) = (m.1 : Int) := by
            rw [hmw]; exact max_eq_left hWa
          rw [if_neg (show ¬(maxWeight (m :: ms) ≤ b) from by rw [hmax]; omega)]
          rw [List.find?_cons, show decide ((m.1 : Int) = maxWeight (m :: ms))
            = true from by
              simp only [decide_eq_true_eq]
              exact hmax.symm]
          simp
          exact hmax.symm
        · have hlt : (m.1 : Int) < maxWeight ms := by omega
          have hmax : maxWeight (m :: ms) = maxWeight ms := by
            rw [hmw]; exact max_eq_right (le_of_lt hlt)
          rw [if_neg hWa,
            if_neg (show ¬(maxWeight (m :: ms) ≤ b) from by rw [hmax]; omega)]
          rw [List.find?_cons, show decide ((m.1 : Int) = maxWeight (m :: ms))
            = false from by
              simp only [decide_eq_false_iff_not]
              rw [hmax]
              omega]
          rw [hmax]
          have hsome := maxWeight_attained ms (by
            have h0 : (0 : Int) ≤ (m.1 : Int) := Int.natCast_nonneg _
            omega)
          rcases Option.isSome_iff_exists.mp hsome with ⟨x, hx⟩
          rw [hx]
          simp
      · rw [show bestStep (b, e) m = (b, e) from by simp [bestStep, hab]]
        rw [fold_bestStep_spec ms b e hb]
        by_cases hW : maxWeight ms ≤ b
        · have hmax : maxWeight (m :: ms) ≤ b := by
            rw [hmw]
            exact max_le (by omega) hW
          rw [if_pos hW, if_pos hmax]
        · have hlt : b < maxWeight ms := by omega
          have hmax : maxWeight (m :: ms) = maxWeight ms := by
            rw [hmw]; exact max_eq_right (by omega)
          rw [if_neg hW,
            if_neg (show ¬(maxWeight (m :: ms) ≤ b) from by rw [hmax]; omega)]
          rw [List.find?_cons, show decide ((m.1 : Int) = maxWeight (m :: ms))
            = false from by
              simp only [decide_eq_false_iff_not]
              rw [hmax]
              omega]
          rw [hmax]
  termination_by ms => ms.length

/-- C6 (confirmed): `find_user_email_for_record` returns the identity of
the match with the strictly greatest specificity weight over all matches of
all candidates (component matches weighing the normalized component's
length, substring matches the normalized roster path's length), ties
keeping the first-found match, and the empty string when no match exists;
on the spec's example the longer component `special_project` wins over
`fics`. -/
theorem c6_most_specific_match :
    (∀ (meta : Record) (users : UsersIndex),
      find_user_email_for_record meta users
        = specSelect (specMatches meta users)) ∧
    find_user_email_for_record
      [("file_path".data,
        Json.str "S:\\CT_DATA\\FICS\\special_project\\file.pca".data)]
      ⟨[("fics".data, "general@x.com".data),
        ("special_project".data, "specific@x.com".data)], []⟩
      = "specific@x.com".data := by
  constructor
  · intro meta users
    rw [find_user_email_for_record]
    by_cases h1 : users.component_map = [] ∧ users.path_list = []
    · rw [if_pos h1]
      have hms : specMatches meta users = [] := by
        rw [specMatches]
        have : ∀ raw, candMatches users raw = [] := by
          intro raw
          rw [candMatches, h1.1, h1.2]
          simp [dlookup, List.filterMap_nil]
        simp [this]
      rw [hms]
      rfl
    · rw [if_neg h1]
      by_cases h2 : gather_candidate_paths meta = []
      · rw [if_pos h2]
        have hms : specMatches meta users = [] := by
          rw [specMatches, h2, List.flatMap_nil]
        rw [hms]
        rfl
      · rw [if_neg h2]
        rw [fold_scan_eq users, ← specMatches,
          fold_bestStep_spec (specMatches meta users) (-1) [] (le_refl _)]
        by_cases hW : maxWeight (specMatches meta users) ≤ -1
        · rw [if_pos hW]
          have hempty : specMatches meta users = [] := by
            cases hms : specMatches meta users with
            | nil => rfl
            | cons m rest =>
                have := maxWeight_nonneg m (m :: rest) (List.mem_cons_self m rest)
                rw [hms] at hW
                omega
          rw [hempty]
          rfl
        · rw [if_neg hW]
          have hsome := maxWeight_attained (specMatches meta users) (by omega)
          rcases Option.isSome_iff_exists.mp hsome with ⟨x, hx⟩
          rw [specSelect, hx]
          simp
  · decide

/-! ## C1 and C2: merge semantics of the two aggregation scripts -/

/-- The last incoming record carrying dedup key `k`, in ingestion order
(specification side). -/
def lastKeyed (inc : List Record) (k : Str) : Option Record :=
  inc.reverse.find? (fun r => decide (dedupe_key r = k))

/-- The first record carrying dedup key `k` (specification side). -/
def firstKeyed (l : List Record) (k : Str) : Option Record :=
  l.find? (fun r => decide (record_key r = k))

/-- Recursive restatement of the skip-duplicates loop, with the `seen` set
replaced by the cumulative list's own key set. -/
def skipMerge : List Record → List Record → List Record
  | cum, [] => cum
  | cum, it :: rest =>
    if record_key it ∈ cum.map record_key then skipMerge cum rest
    else skipMerge (cum ++ [it]) rest

theorem aggJ_dlookup (m : List (Str × Record)) (inc : List Record) (k : Str) :
    dlookup (aggregate_json_merge m inc) k
      = match lastKeyed inc k with
        | some r => some r
        | none => dlookup m k := by
  induction inc using List.reverseRecOn with
  | nil => rfl
  | append_singleton xs x ih =>
      rw [aggregate_json_merge, List.foldl_append, List.foldl_cons,
        List.foldl_nil, ← aggregate_json_merge]
      rw [lastKeyed, List.reverse_append]
      simp only [List.reverse_cons, List.reverse_nil, List.nil_append,
        List.singleton_append, List.find?_cons]
      by_cases hk : dedupe_key x = k
      · rw [show decide (dedupe_key x = k) = true from by simp [hk]]
        rw [← hk, dlookup_dinsert_self]
      · rw [show decide (dedupe_key x = k) = false from by simp [hk]]
        rw [dlookup_dinsert_ne _ _ _ _ (fun h => hk h.symm), ih, lastKeyed]

theorem aggJ_nodup (m : List (Str × Record)) (inc : List Record)
    (h : (dkeys m).Nodup) : (dkeys (aggregate_json_merge m inc)).Nodup := by
  induction inc generalizing m with
  | nil => exact h
  | cons r rest ih =>
      rw [aggregate_json_merge, List.foldl_cons, ← aggregate_json_merge]
      exact ih _ (dkeys_dinsert_nodup m (dedupe_key r) r h)

theorem mergeM_eq_skip (inc cum : List Record) :
    aggregate_metadata_merge cum inc = skipMerge cum inc := by
  suffices haux : ∀ (inc cum : List Record),
      (inc.foldl (fun st it =>
        let k := record_key it
        if k ∈ st.2 then st else (st.1 ++ [it], st.2 ++ [k]))
        (cum, cum.map record_key)).1 = skipMerge cum inc by
    exact haux inc cum
  intro inc
  induction inc with
  | nil => intro cum; rfl
  | cons it rest ih =>
      intro cum
      rw [List.foldl_cons, skipMerge]
      by_cases hin : record_key it ∈ cum.map record_key
      · simp only [hin, if_true]
        exact ih cum
      · simp only [hin, if_false]
        have : (cum ++ [it], cum.map record_key ++ [record_key it])
            = (cum ++ [it], (cum ++ [it]).map record_key) := by
          simp
        rw [this]
        exact ih (cum ++ [it])

theorem skip_firstKeyed (inc : List Record) : ∀ (cum : List Record) (k : Str),
    firstKeyed (skipMerge cum inc) k
      = match firstKeyed cum k with
        | some r => some r
        | none => firstKeyed inc k := by
  induction inc with
  | nil =>
      intro cum k
      rw [skipMerge]
      cases hc : firstKeyed cum k <;> rfl
  | cons it rest ih =>
      intro cum k
      rw [skipMerge]
      by_cases hin : record_key it ∈ cum.map record_key
      · rw [if_pos hin, ih cum k]
        cases hc : firstKeyed cum k with
        | some r => rfl
        | none =>
            have hne : ¬(record_key it = k) := by
              intro hk
              rcases List.mem_map.mp hin with ⟨r, hr, hrk⟩
              have hnone := List.find?_eq_none.mp hc r hr
              simp only [decide_eq_true_eq] at hnone
              exact hnone (hrk.trans hk)
            simp only [firstKeyed, List.find?_cons,
              show decide (record_key it = k) = false from by simp [hne]]
      · rw [if_neg hin, ih (cum ++ [it]) k]
        rw [show firstKeyed (cum ++ [it]) k
          = (firstKeyed cum k).or (firstKeyed [it] k) from by
            rw [firstKeyed, firstKeyed, firstKeyed, List.find?_append]]
        cases hc : firstKeyed cum k with
        | some r => rfl
        | none =>
            rw [Option.none_or]
            by_cases hk : record_key it = k
            · rw [show firstKeyed [it] k = some it from by
                simp [firstKeyed, List.find?_cons, hk]]
              rw [show firstKeyed (it :: rest) k = some it from by
                simp [firstKeyed, List.find?_cons, hk]]
            · rw [show firstKeyed [it] k = none from by
                simp [firstKeyed, List.find?_cons, hk]]
              rw [show firstKeyed (it :: rest) k = firstKeyed rest k from by
                simp [firstKeyed, List.find?_cons, hk]]

theorem skip_nodup (inc : List Record) : ∀ (cum : List Record),
    (cum.map record_key).Nodup → ((skipMerge cum inc).map record_key).Nodup := by
  induction inc with
  | nil => intro cum h; exact h
  | cons it rest ih =>
      intro cum h
      rw [skipMerge]
      by_cases hin : record_key it ∈ cum.map record_key
      · rw [if_pos hin]; exact ih cum h
      · rw [if_neg hin]
        refine ih (cum ++ [it]) ?_
        rw [List.map_append]
        refine List.Nodup.append h (List.nodup_singleton _) ?_
        intro a ha hb
        simp only [List.map_cons, List.map_nil, List.mem_singleton] at hb
        subst hb
        exact hin ha

theorem skip_keys_mono (inc : List Record) : ∀ (cum : List Record) (k : Str),
    k ∈ cum.map record_key → k ∈ (skipMerge cum inc).map record_key := by
  induction inc with
  | nil => intro cum k h; exact h
  | cons it rest ih =>
      intro cum k h
      rw [skipMerge]
      by_cases hin : record_key it ∈ cum.map record_key
      · rw [if_pos hin]; exact ih cum k h
      · rw [if_neg hin]
        refine ih (cum ++ [it]) k ?_
        rw [List.map_append]
        exact List.mem_append.mpr (Or.inl h)

theorem skip_keys_incoming (inc : List Record) :
    ∀ (cum : List Record) (r : Record), r ∈ inc →
    record_key r ∈ (skipMerge cum inc).map record_key := by
  induction inc with
  | nil => intro cum r h; exact absurd h (List.not_mem_nil r)
  | cons it rest ih =>
      intro cum r h
      rw [skipMerge]
      rcases List.mem_cons.mp h with h1 | h1
      · subst h1
        by_cases hin : record_key r ∈ cum.map record_key
        · rw [if_pos hin]; exact skip_keys_mono rest cum _ hin
        · rw [if_neg hin]
          exact skip_keys_mono rest (cum ++ [r]) _ (by
            rw [List.map_append]
            exact List.mem_append.mpr (Or.inr (by simp)))
      · by_cases hin : record_key it ∈ cum.map record_key
        · rw [if_pos hin]; exact ih cum r h1
        · rw [if_neg hin]; exact ih (cum ++ [it]) r h1

theorem skip_noop (inc : List Record) : ∀ (cum : List Record),
    (∀ r ∈ inc, record_key r ∈ cum.map record_key) → skipMerge cum inc = cum := by
  induction inc with
  | nil => intro cum _; rfl
  | cons it rest ih =>
      intro cum h
      rw [skipMerge, if_pos (h it (List.mem_cons_self it rest))]
      exact ih cum (fun r hr => h r (List.mem_cons_of_mem it hr))

/-- C1 (corrected, counterexample): with an existing store holding
`{"id": "x", "v": 1}` and an incoming `{"id": "x", "v": 2}` with the same
dedup key, `aggregate_metadata.main` keeps the existing record and drops
the incoming one — the merge does not replace. -/
theorem c1_counterexample :
    record_key [("id".data, Json.str ('x' :: [])), ("v".data, Json.int 1)]
      = record_key [("id".data, Json.str ('x' :: [])), ("v".data, Json.int 2)] ∧
    ([("id".data, Json.str ('x' :: [])), ("v".data, Json.int 1)] : Record)
      ≠ [("id".data, Json.str ('x' :: [])), ("v".data, Json.int 2)] ∧
    aggregate_metadata_merge
        [[("id".data, Json.str ('x' :: [])), ("v".data, Json.int 1)]]
        [[("id".data, Json.str ('x' :: [])), ("v".data, Json.int 2)]]
      = [[("id".data, Json.str ('x' :: [])), ("v".data, Json.int 1)]] ∧
    ([("id".data, Json.str ('x' :: [])), ("v".data, Json.int 2)] : Record)
      ∉ aggregate_metadata_merge
          [[("id".data, Json.str ('x' :: [])), ("v".data, Json.int 1)]]
          [[("id".data, Json.str ('x' :: [])), ("v".data, Json.int 2)]] := by
  refine ⟨rfl, by decide, rfl, by decide⟩

/-- C1 (amended): `aggregate_json.main` merges by upsert — the store maps
each dedup key to the last incoming record with that key, falling back to
the existing record, and keeps at most one record per key; but
`aggregate_metadata.main` merges by skip — the merged store's first record
for a key is the existing one when present, the incoming records only fill
keys not yet present (first-write-wins), and at-most-one-record-per-key
holds provided the loaded store was itself duplicate-free. -/
theorem c1_upsert_vs_skip :
    (∀ (m : List (Str × Record)) (inc : List Record) (k : Str),
      dlookup (aggregate_json_merge m inc) k
        = match lastKeyed inc k with
          | some r => some r
          | none => dlookup m k) ∧
    (∀ (m : List (Str × Record)) (inc : List Record),
      (dkeys m).Nodup → (dkeys (aggregate_json_merge m inc)).Nodup) ∧
    (∀ (cum inc : List Record) (k : Str),
      firstKeyed (aggregate_metadata_merge cum inc) k
        = match firstKeyed cum k with
          | some r => some r
          | none => firstKeyed inc k) ∧
    (∀ (cum inc : List Record),
      (cum.map record_key).Nodup
        → ((aggregate_metadata_merge cum inc).map record_key).Nodup) := by
  refine ⟨aggJ_dlookup, aggJ_nodup, fun cum inc k => ?_, fun cum inc h => ?_⟩
  · rw [mergeM_eq_skip]
    exact skip_firstKeyed inc cum k
  · rw [mergeM_eq_skip]
    exact skip_nodup inc cum h

/-- C1 witness: the Nodup parts of the amended claim applied to concrete
one-record stores. -/
theorem c1_upsert_vs_skip_witness :
    ((dkeys ([(('i' :: 'd' :: ':' :: 'x' :: []),
        [("id".data, Json.str ('x' :: []))])] : List (Str × Record))).Nodup) ∧
    ((([[("id".data, Json.str ('x' :: []))]] : List Record).map
      record_key).Nodup) ∧
    (dkeys (aggregate_json_merge
        [(('i' :: 'd' :: ':' :: 'x' :: []), [("id".data, Json.str ('x' :: []))])]
        [[("uuid".data, Json.str ('u' :: []))]])).Nodup ∧
    ((aggregate_metadata_merge [[("id".data, Json.str ('x' :: []))]]
        [[("uuid".data, Json.str ('u' :: []))]]).map record_key).Nodup := by
  refine ⟨by decide, by decide, ?_, ?_⟩
  · exact c1_upsert_vs_skip.2.1 _ _ (by decide)
  · exact c1_upsert_vs_skip.2.2.2 _ _ (by decide)

/-- C2 (confirmed): merging the same incoming record set twice is
idempotent for both scripts — for `aggregate_json` the store agrees on
every dedup key with the single merge, and for `aggregate_metadata` the
second merge returns the store unchanged. -/
theorem c2_idempotent_merge :
    (∀ (m : List (Str × Record)) (inc : List Record) (k : Str),
      dlookup (aggregate_json_merge (aggregate_json_merge m inc) inc) k
        = dlookup (aggregate_json_merge m inc) k) ∧
    (∀ (cum inc : List Record),
      aggregate_metadata_merge (aggregate_metadata_merge cum inc) inc
        = aggregate_metadata_merge cum inc) := by
  constructor
  · intro m inc k
    rw [aggJ_dlookup, aggJ_dlookup m inc k]
    cases h : lastKeyed inc k <;> rfl
  · intro cum inc
    rw [mergeM_eq_skip, mergeM_eq_skip]
    exact skip_noop inc (skipMerge cum inc)
      (fun r hr => skip_keys_incoming inc cum r hr)

/-! ## C4: determinism and discrimination of the canonical-hash fallback.
The serialisation of `json.dumps` is shown to be prefix-determined: no two
distinct values serialise to strings where one, followed by suitable rest
text, equals the other.  This gives injectivity of `canonSer` and hence the
"different keys up to hash collision" reading of the claim. -/

/-- ASCII decimal digit test. -/
def isDigitC (c : Char) : Bool := 48 ≤ c.toNat && c.toNat ≤ 57

/-- No-digit-head condition on rest text: what may legally follow a
serialised number so that the digit run is unambiguous. -/
def ndh (r : Str) : Prop := ∀ c, r.head? = some c → isDigitC c = false

theorem char_toNat_inj {a b : Char} (h : a.toNat = b.toNat) : a = b :=
  Char.eq_of_val_eq (UInt32.ext h)

theorem digitChar_toNat : ∀ d : Fin 10, (digitChar d.val).toNat = 48 + d.val := by
  decide

theorem digitChar_digit : ∀ d : Fin 10, isDigitC (digitChar d.val) = true := by
  decide

theorem hexDigit_inj : ∀ a b : Fin 16,
    hexDigit a.val = hexDigit b.val → a = b := by
  decide

theorem natRepr_ne_nil (n : Nat) : natRepr n ≠ [] := by
  rw [natRepr]
  by_cases h : n < 10 <;> simp [h]

theorem natRepr_digits (n : Nat) : ∀ c ∈ natRepr n, isDigitC c = true := by
  induction n using natRepr.induct with
  | case1 n h =>
      intro c hc
      rw [natRepr, dif_pos h] at hc
      simp only [List.mem_singleton] at hc
      subst hc
      exact digitChar_digit ⟨n, h⟩
  | case2 n h ih =>
      intro c hc
      rw [natRepr, dif_neg h] at hc
      rcases List.mem_append.mp hc with h1 | h1
      · exact ih c h1
      · simp only [List.mem_singleton] at h1
        subst h1
        exact digitChar_digit ⟨n % 10, Nat.mod_lt n (by norm_num)⟩

/-- Value of a digit string (little tool to show `natRepr` injective). -/
def digitsVal (s : Str) : Nat := s.foldl (fun a c => a * 10 + (c.toNat - 48)) 0

theorem digitsVal_append (s : Str) (c : Char) :
    digitsVal (s ++ [c]) = digitsVal s * 10 + (c.toNat - 48) := by
  rw [digitsVal, digitsVal, List.foldl_append, List.foldl_cons, List.foldl_nil]

theorem digitsVal_natRepr (n : Nat) : digitsVal (natRepr n) = n := by
  induction n using natRepr.induct with
  | case1 n h =>
      rw [natRepr, dif_pos h]
      have hd : (digitChar n).toNat = 48 + n := digitChar_toNat ⟨n, h⟩
      simp only [digitsVal, List.foldl_cons, List.foldl_nil]
      omega
  | case2 n h ih =>
      rw [natRepr, dif_neg h, digitsVal_append, ih]
      have hd : (digitChar (n % 10)).toNat = 48 + n % 10 :=
        digitChar_toNat ⟨n % 10, Nat.mod_lt n (by norm_num)⟩
      have h2 := Nat.div_add_mod n 10
      omega

theorem natRepr_inj {a b : Nat} (h : natRepr a = natRepr b) : a = b := by
  have := digitsVal_natRepr a
  rw [h, digitsVal_natRepr] at this
  exact this.symm

theorem digits_run : ∀ (d1 d2 r1 r2 : Str),
    (∀ c ∈ d1, isDigitC c = true) → (∀ c ∈ d2, isDigitC c = true) →
    ndh r1 → ndh r2 → d1 ++ r1 = d2 ++ r2 → d1 = d2
  | [], [], _, _, _, _, _, _, _ => rfl
  | [], c2 :: t2, r1, r2, _, h2, hr1, _, heq => by
      simp only [List.nil_append, List.cons_append] at heq
      have hhead : r1.head? = some c2 := by rw [heq]; rfl
      have := hr1 c2 hhead
      rw [h2 c2 (List.mem_cons_self _ _)] at this
      exact Bool.noConfusion this
  | c1 :: t1, [], r1, r2, h1, _, _, hr2, heq => by
      simp only [List.nil_append, List.cons_append] at heq
      have hhead : r2.head? = some c1 := by rw [← heq]; rfl
      have := hr2 c1 hhead
      rw [h1 c1 (List.mem_cons_self _ _)] at this
      exact Bool.noConfusion this
  | c1 :: t1, c2 :: t2, r1, r2, h1, h2, hr1, hr2, heq => by
      simp only [List.cons_append, List.cons.injEq] at heq
      rw [heq.1,
        digits_run t1 t2 r1 r2 (fun c hc => h1 c (List.mem_cons_of_mem _ hc))
          (fun c hc => h2 c (List.mem_cons_of_mem _ hc)) hr1 hr2 heq.2]

theorem natRepr_sep (a b : Nat) (r1 r2 : Str) (hr1 : ndh r1) (hr2 : ndh r2)
    (heq : natRepr a ++ r1 = natRepr b ++ r2) : a = b ∧ r1 = r2 := by
  have hd := digits_run (natRepr a) (natRepr b) r1 r2 (natRepr_digits a)
    (natRepr_digits b) hr1 hr2 heq
  refine ⟨natRepr_inj hd, ?_⟩
  rw [hd] at heq
  exact List.append_cancel_left heq

theorem intRepr_sep (a b : Int) (r1 r2 : Str) (hr1 : ndh r1) (hr2 : ndh r2)
    (heq : intRepr a ++ r1 = intRepr b ++ r2) : a = b ∧ r1 = r2 := by
  cases a with
  | ofNat n1 =>
      cases b with
      | ofNat n2 =>
          rcases natRepr_sep n1 n2 r1 r2 hr1 hr2 heq with ⟨h1, h2⟩
          exact ⟨by rw [h1], h2⟩
      | negSucc m2 =>
          exfalso
          rw [intRepr, intRepr] at heq
          cases hn : natRepr n1 with
          | nil => exact natRepr_ne_nil n1 hn
          | cons c t =>
              rw [hn] at heq
              simp only [List.cons_append, List.cons.injEq] at heq
              have hmem : c ∈ natRepr n1 := by
                rw [hn]
                exact List.mem_cons_self _ _
              have hd := natRepr_digits n1 c hmem
              rw [heq.1] at hd
              exact Bool.noConfusion hd
  | negSucc m1 =>
      cases b with
      | ofNat n2 =>
          exfalso
          rw [intRepr, intRepr] at heq
          cases hn : natRepr n2 with
          | nil => exact natRepr_ne_nil n2 hn
          | cons c t =>
              rw [hn] at heq
              simp only [List.cons_append, List.cons.injEq] at heq
              have hmem : c ∈ natRepr n2 := by
                rw [hn]
                exact List.mem_cons_self _ _
              have hd := natRepr_digits n2 c hmem
              rw [← heq.1] at hd
              exact Bool.noConfusion hd
      | negSucc m2 =>
          rw [intRepr, intRepr] at heq
          simp only [List.cons_append, List.cons.injEq] at heq
          rcases natRepr_sep (m1 + 1) (m2 + 1) r1 r2 hr1 hr2 heq.2 with ⟨h1, h2⟩
          exact ⟨by rw [show m1 = m2 from by omega], h2⟩

/-- Value of a lowercase hexadecimal digit character (tool for decoding the
escape units during the injectivity proof). -/
def hexVal (c : Char) : Nat :=
  if c.toNat ≤ 57 then c.toNat - 48 else c.toNat - 87

/-- Decoder of the tail of a backslash escape unit (proof tool). -/
def decodeEscTail : Str → Option (Char × Str)
  | '"' :: t => some ('"', t)
  | '\\' :: t => some ('\\', t)
  | 'n' :: t => some ('\n', t)
  | 't' :: t => some ('\t', t)
  | 'r' :: t => some ('\r', t)
  | 'b' :: t => some (Char.ofNat 8, t)
  | 'f' :: t => some (Char.ofNat 12, t)
  | 'u' :: '0' :: '0' :: h1 :: h2 :: t =>
    some (Char.ofNat (16 * hexVal h1 + hexVal h2), t)
  | _ => none

/-- Decoder of one `json.dumps` escape unit (proof tool). -/
def decodeEsc : Str → Option (Char × Str)
  | [] => none
  | c :: t => if c = '\\' then decodeEscTail t else some (c, t)

theorem hexVal_hexDigit : ∀ x : Fin 16, hexVal (hexDigit x.val) = x.val := by
  decide

theorem escRoundtrip : ∀ (c : Char) (t : Str),
    decodeEsc (jsonEscChar c ++ t) = some (c, t) := by
  intro c t
  unfold jsonEscChar
  split_ifs with h1 h2 h3 h4 h5 h6 h7 h8
  · subst h1; rfl
  · subst h2; rfl
  · subst h3; rfl
  · subst h4; rfl
  · subst h5; rfl
  · subst h6; rfl
  · subst h7; rfl
  · simp only [List.cons_append, List.nil_append, decodeEsc, if_pos rfl]
    have e1 : hexVal (hexDigit (c.toNat / 16)) = c.toNat / 16 :=
      hexVal_hexDigit ⟨c.toNat / 16, by omega⟩
    have e2 : hexVal (hexDigit (c.toNat % 16)) = c.toNat % 16 :=
      hexVal_hexDigit ⟨c.toNat % 16, by omega⟩
    rw [show decodeEscTail ('u' :: '0' :: '0' :: hexDigit (c.toNat / 16)
        :: hexDigit (c.toNat % 16) :: t)
      = some (Char.ofNat (16 * hexVal (hexDigit (c.toNat / 16))
        + hexVal (hexDigit (c.toNat % 16))), t) from rfl]
    rw [e1, e2, show 16 * (c.toNat / 16) + c.toNat % 16 = c.toNat from by omega,
      Char.ofNat_toNat]
    simp
  · simp only [List.cons_append, List.nil_append, decodeEsc, if_neg h2]

theorem escChar_sep (c1 c2 : Char) (t1 t2 : Str)
    (heq : jsonEscChar c1 ++ t1 = jsonEscChar c2 ++ t2) :
    c1 = c2 ∧ t1 = t2 := by
  have r1 := escRoundtrip c1 t1
  rw [heq, escRoundtrip c2 t2] at r1
  injection r1 with r1
  obtain ⟨ha, hb⟩ := Prod.mk.injEq _ _ _ _ ▸ r1
  exact ⟨ha.symm, hb.symm⟩

theorem escChar_ne_nil (c : Char) : jsonEscChar c ≠ [] := by
  intro h
  have hr := escRoundtrip c []
  rw [h, List.nil_append] at hr
  exact Option.noConfusion hr

theorem escChar_head_ne_quote (c : Char) (t0 : Str)
    (h : jsonEscChar c = '"' :: t0) : False := by
  have hr := escRoundtrip c []
  rw [List.append_nil, h] at hr
  rw [show decodeEsc ('"' :: t0) = some ('"', t0) from by
    simp [decodeEsc, show ¬('"' = '\\') from by decide]] at hr
  injection hr with hr
  obtain ⟨ha, hb⟩ := Prod.mk.injEq _ _ _ _ ▸ hr
  subst ha
  rw [show jsonEscChar '"' = ['\\', '"'] from rfl] at h
  simp at h

theorem strBody_sep : ∀ (cs1 cs2 r1 r2 : Str),
    cs1.flatMap jsonEscChar ++ '"' :: r1 = cs2.flatMap jsonEscChar ++ '"' :: r2 →
    cs1 = cs2 ∧ r1 = r2
  | [], [], r1, r2, heq => by
      simp only [List.flatMap_nil, List.nil_append, List.cons.injEq] at heq
      exact ⟨rfl, heq.2⟩
  | [], c2 :: t2, r1, r2, heq => by
      exfalso
      simp only [List.flatMap_nil, List.nil_append, List.flatMap_cons,
        List.append_assoc] at heq
      cases hn : jsonEscChar c2 with
      | nil => exact escChar_ne_nil c2 hn
      | cons e t0 =>
          rw [hn] at heq
          simp only [List.cons_append, List.cons.injEq] at heq
          exact escChar_head_ne_quote c2 t0 (by rw [hn, heq.1])
  | c1 :: t1, [], r1, r2, heq => by
      exfalso
      simp only [List.flatMap_nil, List.nil_append, List.flatMap_cons,
        List.append_assoc] at heq
      cases hn : jsonEscChar c1 with
      | nil => exact escChar_ne_nil c1 hn
      | cons e t0 =>
          rw [hn] at heq
          simp only [List.cons_append, List.cons.injEq] at heq
          exact escChar_head_ne_quote c1 t0 (by rw [hn, heq.1])
  | c1 :: t1, c2 :: t2, r1, r2, heq => by
      simp only [List.flatMap_cons, List.append_assoc] at heq
      rcases escChar_sep c1 c2 _ _ heq with ⟨hc, ht⟩
      rcases strBody_sep t1 t2 r1 r2 ht with ⟨h1, h2⟩
      exact ⟨by rw [hc, h1], h2⟩

theorem jsonQuote_sep (s1 s2 : Str) (r1 r2 : Str)
    (heq : jsonQuote s1 ++ r1 = jsonQuote s2 ++ r2) : s1 = s2 ∧ r1 = r2 := by
  rw [jsonQuote, jsonQuote] at heq
  simp only [List.cons_append, List.append_assoc, List.singleton_append,
    List.cons.injEq] at heq
  exact strBody_sep s1 s2 r1 r2 heq.2

/-- Syntactic class of the first character of a serialised JSON value. -/
def classOfChar (c : Char) : Nat :=
  if c = 'n' then 0
  else if c = 't' ∨ c = 'f' then 1
  else if isDigitC c = true ∨ c = '-' then 3
  else if c = '"' then 5
  else if c = '[' then 6
  else if c = '{' then 7
  else 8

/-- Class a value's serialisation must start with. -/
def serHeadClass : Json → Nat
  | .null => 0
  | .bool _ => 1
  | .int _ => 3
  | .str _ => 5
  | .arr _ => 6
  | .obj _ => 7

theorem digit_class (c : Char) (h : isDigitC c = true) : classOfChar c = 3 := by
  unfold classOfChar
  split_ifs with h0 h1 h2
  · subst h0; exact absurd h (by decide)
  · rcases h1 with h1 | h1 <;> (subst h1; exact absurd h (by decide))
  · rfl
  all_goals exact absurd (Or.inl h) h2

theorem serRaw_head_class (j : Json) :
    ∃ c t, serRaw j = c :: t ∧ classOfChar c = serHeadClass j := by
  cases j with
  | null => exact ⟨'n', _, rfl, by decide⟩
  | bool b =>
      cases b with
      | true => exact ⟨'t', _, rfl, by decide⟩
      | false => exact ⟨'f', _, rfl, by decide⟩
  | int n =>
      cases n with
      | ofNat m =>
          cases hn : natRepr m with
          | nil => exact absurd hn (natRepr_ne_nil m)
          | cons c t =>
              refine ⟨c, t, hn, ?_⟩
              have hmem : c ∈ natRepr m := by
                rw [hn]
                exact List.mem_cons_self _ _
              rw [digit_class c (natRepr_digits m c hmem)]
              rfl
      | negSucc m => exact ⟨'-', _, rfl, rfl⟩
  | str s => exact ⟨'"', _, rfl, rfl⟩
  | arr xs => exact ⟨'[', _, rfl, rfl⟩
  | obj kvs => exact ⟨'{', _, rfl, rfl⟩

theorem serHeadClass_le (j : Json) : serHeadClass j ≤ 7 := by
  cases j <;> simp [serHeadClass]

theorem serRaw_class_eq (j1 j2 : Json) (r1 r2 : Str)
    (heq : serRaw j1 ++ r1 = serRaw j2 ++ r2) :
    serHeadClass j1 = serHeadClass j2 := by
  obtain ⟨c1, t1, hs1, hc1⟩ := serRaw_head_class j1
  obtain ⟨c2, t2, hs2, hc2⟩ := serRaw_head_class j2
  rw [hs1, hs2] at heq
  simp only [List.cons_append, List.cons.injEq] at heq
  rw [← hc1, ← hc2, heq.1]

theorem ndh_cons (c : Char) (h : isDigitC c = false) (r : Str) : ndh (c :: r) := by
  intro c' h'
  simp only [List.head?_cons, Option.some.injEq] at h'
  rw [← h']
  exact h

/-- Text that follows an array element: empty before the closing bracket,
or the `", "` separator and the remaining elements. -/
def serArrTail : List Json → Str
  | [] => []
  | w :: ws => ',' :: ' ' :: serArr (w :: ws)

/-- Text that follows an object entry. -/
def serObjTail : List (Str × Json) → Str
  | [] => []
  | p :: ps => ',' :: ' ' :: serObj (p :: ps)

theorem serArr_cons (v : Json) (rest : List Json) :
    serArr (v :: rest) = serRaw v ++ serArrTail rest := by
  cases rest with
  | nil => rw [serArr, serArrTail, List.append_nil]
  | cons w ws => rw [serArr, serArrTail]

theorem serObj_cons (k : Str) (v : Json) (rest : List (Str × Json)) :
    serObj ((k, v) :: rest)
      = jsonQuote k ++ ':' :: ' ' :: (serRaw v ++ serObjTail rest) := by
  cases rest with
  | nil => rw [serObj, serObjTail, List.append_nil]
  | cons p ps =>
      rw [serObj, serObjTail]
      simp [List.append_assoc]

theorem ndh_arrTail (rest : List Json) (r : Str) :
    ndh (serArrTail rest ++ ']' :: r) := by
  cases rest with
  | nil => exact ndh_cons ']' (by decide) r
  | cons w ws =>
      rw [serArrTail, List.cons_append, List.cons_append]
      exact ndh_cons ',' (by decide) _

theorem ndh_objTail (rest : List (Str × Json)) (r : Str) :
    ndh (serObjTail rest ++ '}' :: r) := by
  cases rest with
  | nil => exact ndh_cons '}' (by decide) r
  | cons p ps =>
      rw [serObjTail, List.cons_append, List.cons_append]
      exact ndh_cons ',' (by decide) _

mutual
theorem serRaw_sep : ∀ (j1 j2 : Json) (r1 r2 : Str), ndh r1 → ndh r2 →
    serRaw j1 ++ r1 = serRaw j2 ++ r2 → j1 = j2 ∧ r1 = r2
  | .null, j2, r1, r2, _, _, heq => by
      have hclass := serRaw_class_eq _ j2 r1 r2 heq
      cases j2 <;> simp only [serHeadClass] at hclass <;> try omega
      simp only [serRaw, List.cons_append, List.cons.injEq] at heq
      exact ⟨rfl, heq.2.2.2.2⟩
  | .bool b1, j2, r1, r2, _, _, heq => by
      have hclass := serRaw_class_eq _ j2 r1 r2 heq
      cases j2 <;> simp only [serHeadClass] at hclass <;> try omega
      rename_i b2
      cases b1 <;> cases b2 <;>
        simp only [serRaw, List.cons_append, List.cons.injEq] at heq
      · exact ⟨rfl, heq.2.2.2.2.2⟩
      · exact absurd heq.1 (by decide)
      · exact absurd heq.1 (by decide)
      · exact ⟨rfl, heq.2.2.2.2⟩
  | .int n1, j2, r1, r2, hr1, hr2, heq => by
      have hclass := serRaw_class_eq _ j2 r1 r2 heq
      cases j2 <;> simp only [serHeadClass] at hclass <;> try omega
      rename_i n2
      rw [serRaw, serRaw] at heq
      rcases intRepr_sep n1 n2 r1 r2 hr1 hr2 heq with ⟨h1, h2⟩
      exact ⟨by rw [h1], h2⟩
  | .str s1, j2, r1, r2, _, _, heq => by
      have hclass := serRaw_class_eq _ j2 r1 r2 heq
      cases j2 <;> simp only [serHeadClass] at hclass <;> try omega
      rename_i s2
      rw [serRaw, serRaw] at heq
      rcases jsonQuote_sep s1 s2 r1 r2 heq with ⟨h1, h2⟩
      exact ⟨by rw [h1], h2⟩
  | .arr xs1, j2, r1, r2, _, _, heq => by
      have hclass := serRaw_class_eq _ j2 r1 r2 heq
      cases j2 <;> simp only [serHeadClass] at hclass <;> try omega
      rename_i xs2
      rw [serRaw, serRaw] at heq
      simp only [List.cons_append, List.append_assoc, List.singleton_append,
        List.cons.injEq] at heq
      rcases serArr_sep xs1 xs2 r1 r2 heq.2 with ⟨h1, h2⟩
      exact ⟨by rw [h1], h2⟩
  | .obj kv1, j2, r1, r2, _, _, heq => by
      have hclass := serRaw_class_eq _ j2 r1 r2 heq
      cases j2 <;> simp only [serHeadClass] at hclass <;> try omega
      rename_i kv2
      rw [serRaw, serRaw] at heq
      simp only [List.cons_append, List.append_assoc, List.singleton_append,
        List.cons.injEq] at heq
      rcases serObj_sep kv1 kv2 r1 r2 heq.2 with ⟨h1, h2⟩
      exact ⟨by rw [h1], h2⟩

theorem serArr_sep : ∀ (xs1 xs2 : List Json) (r1 r2 : Str),
    serArr xs1 ++ ']' :: r1 = serArr xs2 ++ ']' :: r2 → xs1 = xs2 ∧ r1 = r2
  | [], [], r1, r2, heq => by
      simp only [serArr, List.nil_append, List.cons.injEq] at heq
      exact ⟨rfl, heq.2⟩
  | [], v2 :: rest2, r1, r2, heq => by
      exfalso
      rw [serArr_cons] at heq
      obtain ⟨c2, t2, hs2, hc2⟩ := serRaw_head_class v2
      rw [hs2] at heq
      simp only [serArr, List.nil_append, List.cons_append, List.append_assoc,
        List.cons.injEq] at heq
      have h8 : classOfChar ']' = 8 := by decide
      rw [heq.1, hc2] at h8
      have := serHeadClass_le v2
      omega
  | v1 :: rest1, [], r1, r2, heq => by
      exfalso
      rw [serArr_cons] at heq
      obtain ⟨c1, t1, hs1, hc1⟩ := serRaw_head_class v1
      rw [hs1] at heq
      simp only [serArr, List.nil_append, List.cons_append, List.append_assoc,
        List.cons.injEq] at heq
      have h8 : classOfChar ']' = 8 := by decide
      rw [← heq.1, hc1] at h8
      have := serHeadClass_le v1
      omega
  | v1 :: rest1, v2 :: rest2, r1, r2, heq => by
      rw [serArr_cons, serArr_cons] at heq
      rw [List.append_assoc, List.append_assoc] at heq
      rcases serRaw_sep v1 v2 _ _ (ndh_arrTail rest1 r1) (ndh_arrTail rest2 r2)
        heq with ⟨hv, ht⟩
      cases rest1 with
      | nil =>
          cases rest2 with
          | nil =>
              simp only [serArrTail, List.nil_append, List.cons.injEq] at ht
              exact ⟨by rw [hv], ht.2⟩
          | cons w2 ws2 =>
              exfalso
              simp only [serArrTail, List.nil_append, List.cons_append,
                List.cons.injEq] at ht
              exact absurd ht.1 (by decide)
      | cons w1 ws1 =>
          cases rest2 with
          | nil =>
              exfalso
              simp only [serArrTail, List.nil_append, List.cons_append,
                List.cons.injEq] at ht
              exact absurd ht.1 (by decide)
          | cons w2 ws2 =>
              simp only [serArrTail, List.cons_append, List.cons.injEq] at ht
              rcases serArr_sep (w1 :: ws1) (w2 :: ws2) r1 r2 ht.2.2
                with ⟨h1, h2⟩
              exact ⟨by rw [hv, h1], h2⟩

theorem serObj_sep : ∀ (kv1 kv2 : List (Str × Json)) (r1 r2 : Str),
    serObj kv1 ++ '}' :: r1 = serObj kv2 ++ '}' :: r2 → kv1 = kv2 ∧ r1 = r2
  | [], [], r1, r2, heq => by
      simp only [serObj, List.nil_append, List.cons.injEq] at heq
      exact ⟨rfl, heq.2⟩
  | [], (k2, v2) :: rest2, r1, r2, heq => by
      exfalso
      rw [serObj_cons, jsonQuote] at heq
      simp only [serObj, List.nil_append, List.cons_append, List.append_assoc,
        List.cons.injEq] at heq
      exact absurd heq.1 (by decide)
  | (k1, v1) :: rest1, [], r1, r2, heq => by
      exfalso
      rw [serObj_cons, jsonQuote] at heq
      simp only [serObj, List.nil_append, List.cons_append, List.append_assoc,
        List.cons.injEq] at heq
      exact absurd heq.1 (by decide)
  | (k1, v1) :: rest1, (k2, v2) :: rest2, r1, r2, heq => by
      rw [serObj_cons, serObj_cons] at heq
      rw [List.append_assoc, List.append_assoc] at heq
      rcases jsonQuote_sep k1 k2 _ _ heq with ⟨hk, ht⟩
      simp only [List.cons_append, List.cons.injEq] at ht
      rw [List.append_assoc, List.append_assoc] at ht
      rcases serRaw_sep v1 v2 _ _ (ndh_objTail rest1 r1) (ndh_objTail rest2 r2)
        ht.2.2 with ⟨hv, ht2⟩
      cases rest1 with
      | nil =>
          cases rest2 with
          | nil =>
              simp only [serObjTail, List.nil_append, List.cons.injEq] at ht2
              exact ⟨by rw [hk, hv], ht2.2⟩
          | cons p2 ps2 =>
              exfalso
              simp only [serObjTail, List.nil_append, List.cons_append,
                List.cons.injEq] at ht2
              exact absurd ht2.1 (by decide)
      | cons p1 ps1 =>
          cases rest2 with
          | nil =>
              exfalso
              simp only [serObjTail, List.nil_append, List.cons_append,
                List.cons.injEq] at ht2
              exact absurd ht2.1 (by decide)
          | cons p2 ps2 =>
              simp only [serObjTail, List.cons_append, List.cons.injEq] at ht2
              rcases serObj_sep (p1 :: ps1) (p2 :: ps2) r1 r2 ht2.2.2
                with ⟨h1, h2⟩
              exact ⟨by rw [hk, hv, h1], h2⟩
end

/-- Injectivity of the raw serialisation. -/
theorem serRaw_inj (j1 j2 : Json) (h : serRaw j1 = serRaw j2) : j1 = j2 := by
  have heq : serRaw j1 ++ [] = serRaw j2 ++ [] := by
    rw [List.append_nil, List.append_nil, h]
  exact (serRaw_sep j1 j2 [] [] (fun c hc => Option.noConfusion hc)
    (fun c hc => Option.noConfusion hc) heq).1

/-- Key order on object entries used by the canonical sort. -/
def ltP (p q : Str × Json) : Prop := strLt p.1 q.1 = true

theorem strLt_irrefl : ∀ s : Str, strLt s s = false
  | [] => rfl
  | c :: t => by
      simp only [strLt, Bool.or_eq_false_iff, Bool.and_eq_false_iff]
      refine ⟨by simp, Or.inr (strLt_irrefl t)⟩

theorem strLt_asymm : ∀ a b : Str, strLt a b = true → strLt b a = true → False
  | [], [], h1, _ => by simp [strLt] at h1
  | [], _ :: _, _, h2 => by simp [strLt] at h2
  | _ :: _, [], h1, _ => by simp [strLt] at h1
  | a :: as_, b :: bs, h1, h2 => by
      simp only [strLt, Bool.or_eq_true, Bool.and_eq_true,
        decide_eq_true_eq] at h1 h2
      rcases h1 with h1 | ⟨hab, h1⟩
      · rcases h2 with h2 | ⟨hba, _⟩
        · exact absurd h2 (not_lt_of_gt h1)
        · rw [hba] at h1; exact lt_irrefl a h1
      · rcases h2 with h2 | ⟨_, h2⟩
        · rw [hab] at h2; exact lt_irrefl b h2
        · exact strLt_asymm as_ bs h1 h2

theorem strLt_trans : ∀ a b c : Str,
    strLt a b = true → strLt b c = true → strLt a c = true
  | [], b, [], _, h2 => by cases b <;> simp [strLt] at h2
  | [], _, _ :: _, _, _ => rfl
  | _ :: _, [], _, h1, _ => by simp [strLt] at h1
  | _ :: _, _ :: _, [], _, h2 => by simp [strLt] at h2
  | a :: as_, b :: bs, c :: cs, h1, h2 => by
      simp only [strLt, Bool.or_eq_true, Bool.and_eq_true,
        decide_eq_true_eq] at h1 h2 ⊢
      rcases h1 with h1 | ⟨hab, h1⟩
      · rcases h2 with h2 | ⟨hbc, _⟩
        · exact Or.inl (lt_trans h1 h2)
        · exact Or.inl (hbc ▸ h1)
      · rcases h2 with h2 | ⟨hbc, h2⟩
        · exact Or.inl (hab ▸ h2)
        · exact Or.inr ⟨hab.trans hbc, strLt_trans as_ bs cs h1 h2⟩

theorem strLt_total : ∀ a b : Str, a ≠ b → strLt a b = true ∨ strLt b a = true
  | [], [], h => absurd rfl h
  | [], _ :: _, _ => Or.inl rfl
  | _ :: _, [], _ => Or.inr rfl
  | a :: as_, b :: bs, h => by
      rcases lt_trichotomy a b with hab | hab | hab
      · exact Or.inl (by simp [strLt, hab])
      · subst hab
        have hne : as_ ≠ bs := fun hh => h (by rw [hh])
        rcases strLt_total as_ bs hne with h1 | h1
        · exact Or.inl (by simp [strLt, h1])
        · exact Or.inr (by simp [strLt, h1])
      · exact Or.inr (by simp [strLt, hab])

theorem insKey_perm (p : Str × Json) : ∀ l : List (Str × Json),
    (insKey p l).Perm (p :: l)
  | [] => List.Perm.refl _
  | q :: rest => by
      rw [insKey]
      by_cases h : strLt p.1 q.1
      · rw [if_pos h]
      · rw [if_neg h]
        exact (List.Perm.cons q (insKey_perm p rest)).trans
          (List.Perm.swap p q rest)

theorem sortKeys_perm : ∀ l : List (Str × Json), (sortKeys l).Perm l
  | [] => List.Perm.refl _
  | x :: l => by
      rw [sortKeys, List.foldr_cons, ← sortKeys]
      exact (insKey_perm x (sortKeys l)).trans
        (List.Perm.cons x (sortKeys_perm l))

theorem insKey_sorted (p : Str × Json) : ∀ l : List (Str × Json),
    l.Pairwise ltP → (∀ q ∈ l, p.1 ≠ q.1) → (insKey p l).Pairwise ltP
  | [], _, _ => List.pairwise_singleton ltP p
  | q :: rest, hs, hd => by
      rw [insKey]
      rcases List.pairwise_cons.mp hs with ⟨hq, hrest⟩
      by_cases h : strLt p.1 q.1
      · rw [if_pos h]
        refine List.pairwise_cons.mpr ⟨?_, hs⟩
        intro r hr
        rcases List.mem_cons.mp hr with h1 | h1
        · subst h1; exact h
        · exact strLt_trans p.1 q.1 r.1 h (hq r h1)
      · rw [if_neg h]
        have hqp : strLt q.1 p.1 = true := by
          rcases strLt_total p.1 q.1 (hd q (List.mem_cons_self q rest)) with h1 | h1
          · exact absurd h1 h
          · exact h1
        refine List.pairwise_cons.mpr ⟨?_, ?_⟩
        · intro r hr
          have hr2 := (insKey_perm p rest).mem_iff.mp hr
          rcases List.mem_cons.mp hr2 with h1 | h1
          · subst h1; exact hqp
          · exact hq r h1
        · exact insKey_sorted p rest hrest
            (fun r hr => hd r (List.mem_cons_of_mem q hr))

theorem sortKeys_sorted : ∀ l : List (Str × Json),
    (dkeys l).Nodup → (sortKeys l).Pairwise ltP
  | [], _ => List.Pairwise.nil
  | x :: l, hn => by
      rw [sortKeys, List.foldr_cons, ← sortKeys]
      simp only [dkeys, List.map_cons, List.nodup_cons] at hn
      refine insKey_sorted x (sortKeys l) (sortKeys_sorted l hn.2) ?_
      intro q hq hxq
      have : q ∈ l := (sortKeys_perm l).mem_iff.mp hq
      exact hn.1 (hxq ▸ List.mem_map_of_mem Prod.fst this)

theorem sorted_perm_eq (l1 l2 : List (Str × Json))
    (h1 : l1.Pairwise ltP) (h2 : l2.Pairwise ltP) (hp : l1.Perm l2) :
    l1 = l2 := by
  haveI : IsAntisymm (Str × Json) ltP :=
    ⟨fun a b hab hba => (strLt_asymm a.1 b.1 hab hba).elim⟩
  exact List.eq_of_perm_of_sorted hp h1 h2

theorem perm_keys_nodup {l1 l2 : List (Str × Json)} (h : l1.Perm l2)
    (hn : (dkeys l1).Nodup) : (dkeys l2).Nodup :=
  ((h.map Prod.fst).nodup_iff).mp hn

theorem sortKeys_congr (l1 l2 : List (Str × Json)) (hp : l1.Perm l2)
    (hn : (dkeys l1).Nodup) : sortKeys l1 = sortKeys l2 :=
  sorted_perm_eq _ _ (sortKeys_sorted l1 hn) (sortKeys_sorted l2 (perm_keys_nodup hp hn))
    ((sortKeys_perm l1).trans (hp.trans (sortKeys_perm l2).symm))

theorem canonObj_eq_map : ∀ kvs : List (Str × Json),
    canonObj kvs = kvs.map (fun p => (p.1, canon p.2))
  | [] => rfl
  | (k, v) :: rest => by
      rw [canonObj, canonObj_eq_map rest, List.map_cons]

theorem dkeys_canonObj (kvs : List (Str × Json)) :
    dkeys (canonObj kvs) = dkeys kvs := by
  rw [canonObj_eq_map, dkeys, dkeys, List.map_map]
  rfl

theorem canon_obj_perm (r1 r2 : Record) (hp : r1.Perm r2)
    (hn : (dkeys r1).Nodup) : canon (Json.obj r1) = canon (Json.obj r2) := by
  rw [canon, canon]
  rw [sortKeys_congr (canonObj r1) (canonObj r2) ?_ ?_]
  · rw [canonObj_eq_map, canonObj_eq_map]
    exact hp.map _
  · rw [dkeys_canonObj]
    exact hn

theorem dlookup_perm {l1 l2 : List (Str × Json)} (hp : l1.Perm l2)
    (hn : (dkeys l1).Nodup) : ∀ k, dlookup l1 k = dlookup l2 k := by
  induction hp with
  | nil => intro k; rfl
  | cons x hp ih =>
      intro k
      obtain ⟨kx, vx⟩ := x
      simp only [dkeys, List.map_cons, List.nodup_cons] at hn
      by_cases h : kx = k <;> simp [dlookup, h, ih hn.2]
  | swap x y l =>
      intro k
      obtain ⟨kx, vx⟩ := x
      obtain ⟨ky, vy⟩ := y
      simp only [dkeys, List.map_cons, List.nodup_cons, List.mem_cons] at hn
      have hxy : ¬(ky = kx) := fun h => hn.1 (Or.inl h)
      have hyx : ¬(kx = ky) := fun h => hxy h.symm
      by_cases h1 : ky = k
      · subst h1
        simp [dlookup, hxy, hyx]
      · by_cases h2 : kx = k <;> simp [dlookup, h1, h2]
  | trans hp1 hp2 ih1 ih2 =>
      intro k
      rw [ih1 hn, ih2 (perm_keys_nodup hp1 hn)]

theorem hashKey_perm (r1 r2 : Record) (hp : r1.Perm r2)
    (hn : (dkeys r1).Nodup) : hashKey r1 = hashKey r2 := by
  rw [hashKey, hashKey, canonSer, canonSer, canon_obj_perm r1 r2 hp hn]

theorem rkScan_congr (r1 r2 : Record)
    (h : ∀ f, dlookup r1 f = dlookup r2 f) :
    ∀ ks : List Str, rkScan r1 ks = rkScan r2 ks
  | [] => rfl
  | k :: rest => by
      rw [rkScan, rkScan, ← h k, rkScan_congr r1 r2 h rest]

theorem dkScan_congr (r1 r2 : Record)
    (h : ∀ f, dlookup r1 f = dlookup r2 f) :
    ∀ ks : List Str, dkScan r1 ks = dkScan r2 ks
  | [] => rfl
  | k :: rest => by
      rw [dkScan, dkScan, ← h k, dkScan_congr r1 r2 h rest]

/-- Priority fields all missing or null: the condition under which both
key functions fall through to the canonical hash (decidably stated). -/
def nullIdOnly (item : Record) : Bool :=
  PRIORITY_KEYS.all (fun f =>
    match dlookup item f with
    | some v => v = Json.null
    | none => true)

theorem rkScan_none_of_nullIdOnly (item : Record) :
    ∀ ks : List Str, (ks.all (fun f =>
      match dlookup item f with
      | some v => v = Json.null
      | none => true)) = true → rkScan item ks = none
  | [] => fun _ => rfl
  | k :: rest => by
      intro h
      rw [List.all_cons, Bool.and_eq_true] at h
      cases hl : dlookup item k with
      | none =>
          rw [rkScan, hl]
          exact rkScan_none_of_nullIdOnly item rest h.2
      | some v =>
          rw [hl] at h
          simp only [decide_eq_true_eq] at h
          rw [rkScan, hl]
          dsimp only
          rw [if_pos (Or.inl h.1)]
          exact rkScan_none_of_nullIdOnly item rest h.2

theorem dkScan_none_of_nullIdOnly (item : Record) :
    ∀ ks : List Str, (ks.all (fun f =>
      match dlookup item f with
      | some v => v = Json.null
      | none => true)) = true → dkScan item ks = none
  | [] => fun _ => rfl
  | k :: rest => by
      intro h
      rw [List.all_cons, Bool.and_eq_true] at h
      cases hl : dlookup item k with
      | none =>
          rw [dkScan, hl]
          exact dkScan_none_of_nullIdOnly item rest h.2
      | some v =>
          rw [hl] at h
          simp only [decide_eq_true_eq] at h
          rw [dkScan, hl]
          dsimp only
          rw [if_pos h.1]
          exact dkScan_none_of_nullIdOnly item rest h.2

theorem record_key_hash_of_nullIdOnly (item : Record)
    (h : nullIdOnly item = true) : record_key item = hashKey item := by
  rw [record_key, rkScan_none_of_nullIdOnly item PRIORITY_KEYS h]

theorem dedupe_key_hash_of_nullIdOnly (item : Record)
    (h : nullIdOnly item = true) : dedupe_key item = hashKey item := by
  rw [dedupe_key, dkScan_none_of_nullIdOnly item PRIORITY_KEYS h]

theorem record_key_perm (r1 r2 : Record) (hp : r1.Perm r2)
    (hn : (dkeys r1).Nodup) : record_key r1 = record_key r2 := by
  rw [record_key, record_key,
    rkScan_congr r1 r2 (dlookup_perm hp hn) PRIORITY_KEYS]
  cases rkScan r2 PRIORITY_KEYS with
  | some k => rfl
  | none => rw [hashKey_perm r1 r2 hp hn]

theorem dedupe_key_perm (r1 r2 : Record) (hp : r1.Perm r2)
    (hn : (dkeys r1).Nodup) : dedupe_key r1 = dedupe_key r2 := by
  rw [dedupe_key, dedupe_key,
    dkScan_congr r1 r2 (dlookup_perm hp hn) PRIORITY_KEYS]
  cases dkScan r2 PRIORITY_KEYS with
  | some k => rfl
  | none => rw [hashKey_perm r1 r2 hp hn]

theorem dlookup_append_of_not_mem {pre m : List (Str × Json)} {k : Str}
    (h : k ∉ dkeys pre) : dlookup (pre ++ m) k = dlookup m k := by
  induction pre with
  | nil => rfl
  | cons p rest ih =>
      obtain ⟨kp, vp⟩ := p
      simp only [dkeys, List.map_cons, List.mem_cons] at h
      push_neg at h
      have hne : ¬(kp = k) := fun hh => h.1 hh.symm
      rw [List.cons_append, dlookup, if_neg hne]
      exact ih h.2

theorem canonSer_diff (pre post : Record) (k : Str) (v1 v2 : Json)
    (hn : (dkeys (pre ++ (k, v1) :: post)).Nodup)
    (hv : canon v1 ≠ canon v2) :
    canonSer (Json.obj (pre ++ (k, v1) :: post))
      ≠ canonSer (Json.obj (pre ++ (k, v2) :: post)) := by
  intro heq
  rw [canonSer, canonSer] at heq
  have hobj := serRaw_inj _ _ heq
  rw [canon, canon] at hobj
  injection hobj with hobj
  have hkpre : k ∉ dkeys pre := by
    simp only [dkeys, List.map_append, List.map_cons] at hn
    rcases List.nodup_append.mp hn with ⟨_, _, hdisj⟩
    intro hmem
    exact hdisj hmem (List.mem_cons_self _ _)
  have hn2 : (dkeys (pre ++ (k, v2) :: post)).Nodup := by
    simp only [dkeys, List.map_append, List.map_cons] at hn ⊢
    exact hn
  have hlook : ∀ v : Json,
      dlookup (sortKeys (canonObj (pre ++ (k, v) :: post))) k
        = some (canon v) := by
    intro v
    have hnv : (dkeys (pre ++ (k, v) :: post)).Nodup := by
      simp only [dkeys, List.map_append, List.map_cons] at hn ⊢
      exact hn
    have hns : (dkeys (canonObj (pre ++ (k, v) :: post))).Nodup := by
      rw [dkeys_canonObj]
      exact hnv
    rw [dlookup_perm (sortKeys_perm _) (perm_keys_nodup (sortKeys_perm _).symm hns) k]
    rw [canonObj_eq_map, List.map_append, List.map_cons]
    rw [dlookup_append_of_not_mem (by
      rw [show dkeys (List.map (fun p => (p.1, canon p.2)) pre)
        = dkeys pre from by rw [dkeys, dkeys, List.map_map]; rfl]
      exact hkpre)]
    rw [dlookup, if_pos rfl]
  have h1 := hlook v1
  rw [hobj, hlook v2] at h1
  injection h1 with h1
  exact hv h1.symm

theorem beBytes_lt : ∀ (kk n : Nat), ∀ b ∈ beBytes kk n, b < 256
  | 0, _, b, hb => absurd hb (List.not_mem_nil b)
  | kk + 1, n, b, hb => by
      rw [beBytes] at hb
      rcases List.mem_append.mp hb with h1 | h1
      · exact beBytes_lt kk (n / 256) b h1
      · simp only [List.mem_singleton] at h1
        subst h1
        exact Nat.mod_lt n (by norm_num)

theorem hexDigit_mem_hexChars : ∀ x : Fin 16,
    hexDigit x.val ∈ ('0' :: "123456789abcdef".data) := by
  decide

theorem sha256Hex_chars (msg : List Nat) :
    ∀ c ∈ sha256Hex msg, c ∈ ('0' :: "123456789abcdef".data) := by
  intro c hc
  rw [sha256Hex] at hc
  rcases List.mem_flatMap.mp hc with ⟨w, _, hw⟩
  rcases List.mem_flatMap.mp hw with ⟨b, hbmem, hb⟩
  have hblt := beBytes_lt 4 w b hbmem
  rcases List.mem_cons.mp hb with h1 | h1
  · subst h1
    exact hexDigit_mem_hexChars ⟨b / 16, by omega⟩
  · simp only [List.mem_singleton] at h1
    subst h1
    exact hexDigit_mem_hexChars ⟨b % 16, Nat.mod_lt b (by norm_num)⟩

/-- C4 (confirmed): with object keys duplicate-free, both key functions are
invariant under reordering of the record's fields; when no identity field
is usable, two records differing in one (canonically distinct) value have
distinct canonical serialisations, so their keys can coincide only through
a genuine SHA-256 collision on distinct inputs; and the fallback key is a
lowercase-hex digest. -/
theorem c4_hash_fallback :
    (∀ (r1 r2 : Record), r1.Perm r2 → (dkeys r1).Nodup →
      record_key r1 = record_key r2 ∧ dedupe_key r1 = dedupe_key r2) ∧
    (∀ (pre post : Record) (k : Str) (v1 v2 : Json),
      (dkeys (pre ++ (k, v1) :: post)).Nodup →
      canon v1 ≠ canon v2 →
      nullIdOnly (pre ++ (k, v1) :: post) = true →
      nullIdOnly (pre ++ (k, v2) :: post) = true →
      canonSer (Json.obj (pre ++ (k, v1) :: post))
          ≠ canonSer (Json.obj (pre ++ (k, v2) :: post)) ∧
      (record_key (pre ++ (k, v1) :: post) = record_key (pre ++ (k, v2) :: post) →
        sha256Hex (utf8 (canonSer (Json.obj (pre ++ (k, v1) :: post))))
          = sha256Hex (utf8 (canonSer (Json.obj (pre ++ (k, v2) :: post))))) ∧
      (dedupe_key (pre ++ (k, v1) :: post) = dedupe_key (pre ++ (k, v2) :: post) →
        sha256Hex (utf8 (canonSer (Json.obj (pre ++ (k, v1) :: post))))
          = sha256Hex (utf8 (canonSer (Json.obj (pre ++ (k, v2) :: post)))))) ∧
    (∀ item : Record, nullIdOnly item = true →
      record_key item = hashKey item ∧ dedupe_key item = hashKey item ∧
      ∀ c ∈ record_key item, c ∈ ('0' :: "123456789abcdef".data)) := by
  refine ⟨fun r1 r2 hp hn => ⟨record_key_perm r1 r2 hp hn,
      dedupe_key_perm r1 r2 hp hn⟩,
    fun pre post k v1 v2 hn hv h1 h2 => ?_, fun item h => ?_⟩
  · refine ⟨canonSer_diff pre post k v1 v2 hn hv, fun hk => ?_, fun hk => ?_⟩
    · rw [record_key_hash_of_nullIdOnly _ h1,
        record_key_hash_of_nullIdOnly _ h2, hashKey, hashKey] at hk
      exact hk
    · rw [dedupe_key_hash_of_nullIdOnly _ h1,
        dedupe_key_hash_of_nullIdOnly _ h2, hashKey, hashKey] at hk
      exact hk
  · refine ⟨record_key_hash_of_nullIdOnly item h,
      dedupe_key_hash_of_nullIdOnly item h, ?_⟩
    intro c hc
    rw [record_key_hash_of_nullIdOnly item h, hashKey] at hc
    exact sha256Hex_chars _ c hc

/-- C4 witness: field-order invariance on a concrete two-field record, the
distinct-serialisation fact for records differing in one value, and the
hash fallback on a record with no identity field. -/
theorem c4_hash_fallback_witness :
    record_key [("a".data, Json.int 1), ("b".data, Json.int 2)]
      = record_key [("b".data, Json.int 2), ("a".data, Json.int 1)] ∧
    canonSer (Json.obj [("a".data, Json.int 1)])
      ≠ canonSer (Json.obj [("a".data, Json.int 2)]) ∧
    record_key [("a".data, Json.int 1)] = hashKey [("a".data, Json.int 1)] := by
  refine ⟨?_, ?_, ?_⟩
  · exact (c4_hash_fallback.1 _ _ (List.Perm.swap _ _ _) (by decide)).1
  · exact (c4_hash_fallback.2.1 [] [] ("a".data) (Json.int 1) (Json.int 2)
      (by decide) (by simp [canon]) (by decide) (by decide)).1
  · exact (c4_hash_fallback.2.2 [("a".data, Json.int 1)] (by decide)).1

end Rosetta
